import Mathlib

/-!
Verification of the chunked, concurrent, rate-limited, validated translation
pipeline of the `fanfiction` repository.

Strings are modelled as `List Char` (Python `len` counts code points, as does
`List.length` here).  Python regular-expression splits are embedded as
character scanners with the same match semantics; the scanners carry a fuel
argument (initialised to the input length, which always suffices) so that all
definitions are structurally recursive and kernel-computable.
-/

namespace Fanfic

/-- Python's `\s` (ASCII range) and the default `str.strip` character class:
space, tab, newline, carriage return, vertical tab, form feed. -/
def pySpace (c : Char) : Bool :=
  c = ' ' || c = '\t' || c = '\n' || c = '\r' || c = '\x0b' || c = '\x0c'

/-- The subsequence of non-whitespace characters of a string. -/
def nonWs (l : List Char) : List Char :=
  l.filter (fun c => !pySpace c)

/-- Python `str.strip()`: drop leading and trailing whitespace. -/
def strip (l : List Char) : List Char :=
  ((l.dropWhile pySpace).reverse.dropWhile pySpace).reverse

/-- The non-whitespace characters of each part, concatenated. -/
def nwJoin (ls : List (List Char)) : List Char := (ls.map nonWs).flatten

/-- Python `sep.join(parts)` for a one-character separator. -/
def joinSep (s : Char) : List (List Char) → List Char
  | [] => []
  | [p] => p
  | p :: ps => p ++ s :: joinSep s ps

/-- Sum of the lengths of a list of strings. -/
def sumLens (ls : List (List Char)) : Nat :=
  (ls.map List.length).sum

/-- Fixed-width slicing, the embedding of
`while phrase: chunks.append(phrase[:n]); phrase = phrase[n:]`
(and of `[l[i:i+n] for i in range(0, len(l), n)]`).  The fuel argument makes
the recursion structural; the Python loop does not terminate for `n = 0`,
which the fuel-exhaustion branch cuts off. -/
def chunksOfGo (n : Nat) : Nat → List α → List (List α)
  | _, [] => []
  | 0, l => [l]
  | fuel + 1, l => l.take n :: chunksOfGo n fuel (l.drop n)

namespace TextChunker

/-- The suffix of the input strictly after its last `'\n'`, when the input
contains one.  Used to emulate the greedy-then-backtrack behaviour of the
regular expression `\n\s*\n`. -/
def splitAfterLastNl : List Char → Option (List Char)
  | [] => none
  | c :: cs =>
    match splitAfterLastNl cs with
    | some r => some r
    | none => if c = '\n' then some cs else none

/-- Leftmost match of the paragraph separator regex `\n\s*\n|\r\n\s*\r\n` at
the head of the input (Python `re` semantics: the first alternative matches a
`'\n'`, then a greedy run of whitespace backtracked to end at a `'\n'`; the
second alternative is subsumed because `'\r'` is whitespace).  Returns the
remainder of the input after the matched separator. -/
def sepMatch : List Char → Option (List Char)
  | c :: rest =>
    if c = '\n' then
      match splitAfterLastNl (rest.takeWhile pySpace) with
      | some r => some (r ++ rest.dropWhile pySpace)
      | none => none
    else none
  | [] => none

/-- Scanner for `re.split(r'\n\s*\n|\r\n\s*\r\n', text)`: `cur` holds the
current part reversed; a separator match flushes it. -/
def splitParasGo : Nat → List Char → List Char → List (List Char)
  | 0, l, cur => [cur.reverse ++ l]
  | _ + 1, [], cur => [cur.reverse]
  | fuel + 1, c :: cs, cur =>
    match sepMatch (c :: cs) with
    | some r => cur.reverse :: splitParasGo fuel r []
    | none => splitParasGo fuel cs (c :: cur)

/-- `TextChunker._split_into_paragraphs`: regex split on blank-line
separators, strip each part, keep the non-empty ones. -/
def split_into_paragraphs (text : List Char) : List (List Char) :=
  ((splitParasGo text.length text []).map strip).filter (fun p => !p.isEmpty)

/-- Scanner for `re.split(r'(?<=[m…])\s+', text)` where `marks` is the
look-behind character class: a maximal whitespace run immediately preceded by
a mark character separates parts.  `cur` holds the current part reversed, so
the look-behind character is `cur.head?`. -/
def splitMarksGo (marks : List Char) : Nat → List Char → List Char → List (List Char)
  | 0, l, cur => [cur.reverse ++ l]
  | _ + 1, [], cur => [cur.reverse]
  | fuel + 1, c :: cs, cur =>
    match cur.head? with
    | some m =>
      if marks.contains m && pySpace c then
        cur.reverse :: splitMarksGo marks fuel ((c :: cs).dropWhile pySpace) []
      else
        splitMarksGo marks fuel cs (c :: cur)
    | none => splitMarksGo marks fuel cs (c :: cur)

/-- The sentence-ending marks of `re.split(r'(?<=[.!?])\s+', paragraph)`. -/
def sentenceMarks : List Char := ['.', '!', '?']

/-- The phrase marks of `re.split(r'(?<=[,;:])\s+', sentence)`. -/
def phraseMarks : List Char := [',', ';', ':']

/-- The common accumulation loop of `split_into_chunks`, `_split_paragraph`
and `_split_sentence`: greedily pack units into `cur` (whose total unit
length is tracked in `size`, separators not counted); a unit longer than `N`
flushes the buffer and is expanded by `big` (the next-granularity splitter);
a unit that would overflow the buffer flushes it first.  Flushed buffers are
joined with the single-character separator `sep`. -/
def accumGo (sep : Char) (big : List Char → List (List Char)) (N : Nat) :
    List (List Char) → List (List Char) → Nat → List (List Char)
  | [], cur, _ => if cur.isEmpty then [] else [joinSep sep cur]
  | p :: rest, cur, size =>
    if N < p.length then
      (if cur.isEmpty then [] else [joinSep sep cur]) ++ big p ++ accumGo sep big N rest [] 0
    else if N < size + p.length then
      joinSep sep cur :: accumGo sep big N rest [p] p.length
    else
      accumGo sep big N rest (cur ++ [p]) (size + p.length)

/-- `TextChunker._split_sentence`: split a very long sentence on phrase
marks; phrases still longer than the limit are hard-cut into fixed-width
slices; accumulated phrases are joined with a single space. -/
def split_sentence (N : Nat) (sentence : List Char) : List (List Char) :=
  accumGo ' ' (fun phrase => chunksOfGo N phrase.length phrase) N
    (splitMarksGo phraseMarks sentence.length sentence []) [] 0

/-- `TextChunker._split_paragraph`: split a large paragraph into sentences;
oversize sentences are expanded by `_split_sentence`; accumulated sentences
are joined with a single space. -/
def split_paragraph (N : Nat) (paragraph : List Char) : List (List Char) :=
  accumGo ' ' (split_sentence N) N
    (splitMarksGo sentenceMarks paragraph.length paragraph []) [] 0

/-- `TextChunker.split_into_chunks` with `max_chunk_size = N`: empty input
yields no chunks; otherwise paragraphs are accumulated, oversize paragraphs
are expanded by `_split_paragraph`, and buffers are joined with `'\n'`. -/
def split_into_chunks (N : Nat) (text : List Char) : List (List Char) :=
  if text.isEmpty then []
  else accumGo '\n' (split_paragraph N) N (split_into_paragraphs text) [] 0

end TextChunker

/-- The last character of a string is not whitespace (vacuously true of the
empty string; the default `'.'` is not whitespace). -/
def endsOk (l : List Char) : Bool := !pySpace (l.getLastD '.')

namespace TranslationRetryHandler

/-- `TranslationRetryHandler.with_retry`, applied to a function `f` whose
behaviour on its `i`-th invocation (0-based) is `f i : Except Unit T`
(`Except.error` models a raised exception).  The loop body: call `f`; on
success return the result; on exception increment the retry counter and try
again while `retry_count ≤ max_retries`; once attempts are exhausted return
`none`.  Rate-limit sleeps and backoff delays do not affect the returned
value and are not modelled. -/
def retryGo (f : Nat → Except Unit T) : Nat → Nat → Option T
  | _, 0 => none
  | i, n + 1 =>
    match f i with
    | Except.ok v => some v
    | Except.error _ => retryGo f (i + 1) n

/-- The wrapped call: at most `max_retries + 1` invocations of `f`. -/
def with_retry (max_retries : Nat) (f : Nat → Except Unit T) : Option T :=
  retryGo f 0 (max_retries + 1)

/-- `TranslationRetryHandler._record_request_time`: append the current time
to the stored timestamps, then keep only those strictly newer than
`current_time - 60`.  Timestamps are modelled as exact rationals. -/
def record_request_time (prev : List ℚ) (current_time : ℚ) : List ℚ :=
  (prev ++ [current_time]).filter (fun t => current_time - 60 < t)

end TranslationRetryHandler

namespace TranslationService

/-- `TranslationService._translate_text`.  The network round trip
(`requests.get`, `raise_for_status`, JSON parsing and the join of the
translated segments) is abstracted as `net : List Char → Except Unit
(List Char)`, where `Except.error` models any raised exception (the Python
code re-raises for the retry handler).  Empty or whitespace-only input
returns `None` before any use of `net`. -/
def translate_text (net : List Char → Except Unit (List Char))
    (text : List Char) : Except Unit (Option (List Char)) :=
  if (strip text).isEmpty then Except.ok none
  else (net text).map some

/-- One entry of `TranslationService.translate_batch`'s per-text work:
`tr text` is the outcome of `translate_html_content` /
`with_retry(_translate_text)` (both return an optional string); the Python
`translated_text or text` falls back to the original on `None` and on the
empty string. -/
def fallbackEntry (tr : List Char → Option (List Char)) (text : List Char) :
    List Char :=
  match tr text with
  | some s => if s.isEmpty then text else s
  | none => text

/-- `TranslationService.translate_batch`: texts are processed in slices of
`batch_size` (`texts[i:i+batch_size]` for `i in range(0, total, batch_size)`)
and the per-batch results are concatenated in order.  Progress callbacks and
rate-limit sleeps do not affect the returned list. -/
def translate_batch (tr : List Char → Option (List Char)) (batch_size : Nat)
    (texts : List (List Char)) : List (List Char) :=
  (chunksOfGo batch_size texts.length texts).flatMap
    (fun batch => batch.map (fallbackEntry tr))

end TranslationService

namespace ParallelTranslationService

/-- `ParallelTranslationService._translate_batch`'s inner loop over the
batch: for each `(idx, chunk)` call `_translate_text` (directly — not through
the retry handler); a raised exception (`Except.error`) aborts the loop; a
falsy result (`None` or the empty string) skips the chunk; otherwise the pair
`(idx, translated_text)` is collected. -/
def translateLoop (tr : List Char → Except Unit (Option (List Char))) :
    List (Nat × List Char) → Except Unit (List (Nat × List Char))
  | [] => Except.ok []
  | (idx, chunk) :: rest =>
    match tr chunk with
    | Except.error e => Except.error e
    | Except.ok v =>
      match v with
      | some t =>
        if t.isEmpty then translateLoop tr rest
        else (translateLoop tr rest).map (fun l => (idx, t) :: l)
      | none => translateLoop tr rest

/-- `ParallelTranslationService._translate_batch`: the whole loop runs inside
one `try`; any exception is caught and the function returns `None`,
discarding every chunk of the batch. -/
def translate_batch (tr : List Char → Except Unit (Option (List Char)))
    (content_id : String) (chunk_batch : List (Nat × List Char)) :
    Option (String × List (Nat × List Char)) :=
  match translateLoop tr chunk_batch with
  | Except.error _ => none
  | Except.ok pairs => some (content_id, pairs)

/-- Insertion into the per-part Python dict `results[content_id]`
(`results[content_id][idx] = text`): later insertions overwrite. -/
def insertResult (d : Nat → Option (List Char)) (p : Nat × List Char) :
    Nat → Option (List Char) :=
  fun j => if j = p.1 then some p.2 else d j

/-- The results of the queue belonging to one part, in arrival order.
`results` is the flat arrival-ordered list of collected
`(part id, chunk index, translated text)` triples (the queue holds per-batch
lists of pairs; iterating the queue items and, inside each, the pairs, visits
exactly this flattened sequence). -/
def partEntries (results : List (String × Nat × List Char)) (cid : String) :
    List (Nat × List Char) :=
  (results.filter (fun r => r.1 == cid)).map (fun r => r.2)

/-- The per-part dict after draining the queue. -/
def partDict (results : List (String × Nat × List Char)) (cid : String) :
    Nat → Option (List Char) :=
  (partEntries results cid).foldl insertResult (fun _ => none)

/-- `ParallelTranslationService._combine_results`: `chunks_map` is the list
of `(content_id, number of chunks)` pairs (the chunks themselves only matter
through their count, which bounds the index iteration
`range(len(chunks_map[content_id]))`).  A part whose dict received no entry
is skipped (`if not chunks: continue`); otherwise missing indices yield `''`
(`chunks.get(i, '')`) and the falsy entries are dropped by the final
`'\n'.join(chunk for chunk in ordered_chunks if chunk)`. -/
def combine_results (chunks_map : List (String × Nat))
    (results : List (String × Nat × List Char)) : List (String × List Char) :=
  chunks_map.filterMap (fun part =>
    if (partEntries results part.1).isEmpty then none
    else
      some (part.1, joinSep '\n'
        (((List.range part.2).map
            (fun i => (partDict results part.1 i).getD [])).filter
          (fun c => !c.isEmpty))))

/-- Modelled from the spec's words, for comparison with `combine_results`
(claim C1): for each part, take the translated chunk texts in strictly
increasing chunk-index order from `0` to the part's max index, omitting
indices with no successful translation, join them with newlines, and omit
parts with zero successfully translated chunks. -/
def specCombine (chunks_map : List (String × Nat))
    (results : List (String × Nat × List Char)) : List (String × List Char) :=
  chunks_map.filterMap (fun part =>
    if ((List.range part.2).filterMap (fun i =>
        (results.find? (fun r => r.1 == part.1 && r.2.1 == i)).map
          (fun r => r.2.2))).isEmpty then none
    else
      some (part.1, joinSep '\n'
        ((List.range part.2).filterMap (fun i =>
          (results.find? (fun r => r.1 == part.1 && r.2.1 == i)).map
            (fun r => r.2.2)))))

end ParallelTranslationService

/-- The observable outcome of `BeautifulSoup(content, 'html.parser')` as used
by `ContentProcessor` and `TranslationValidator`: the stripped visible text
(`soup.get_text(strip=True)`), the names of all elements (`soup.find_all()`),
and the stripped texts of the block-level elements, in document order
(`soup.find_all(['p','div','h1','h2','h3','h4','h5','h6'])` followed by
`tag.get_text(strip=True)`).  The parser itself is a third-party library and
is abstracted as a function `parse : List Char → SoupDoc`. -/
structure SoupDoc where
  text : List Char
  tagNames : List String
  blockTexts : List (List Char)

namespace ContentProcessor

/-- `ContentProcessor.is_valid_content`: empty or whitespace-only content,
content shorter than 50 characters, empty visible text, a text-to-markup
ratio below 0.1, or the absence of any block-level element fail.  The ratio
test `len(text)/len(content) < 0.1` is embedded exactly by
cross-multiplication, `10·len(text) < len(content)`, which is equivalent
because `len(content) ≥ 50 > 0` holds whenever the test is reached. -/
def is_valid_content (parse : List Char → SoupDoc) (content : List Char) : Bool :=
  if content.isEmpty || (strip content).isEmpty then false
  else if content.length < 50 then false
  else if (parse content).text.isEmpty then false
  else if 10 * (parse content).text.length < content.length then false
  else if (parse content).blockTexts.isEmpty then false
  else true

/-- `ContentProcessor.extract_text_blocks`: the stripped texts of the
block-level elements that are non-empty and strictly longer than 10
characters (`if text and len(text) > 10`). -/
def extract_text_blocks (parse : List Char → SoupDoc) (content : List Char) :
    List (List Char) :=
  if content.isEmpty then []
  else (parse content).blockTexts.filter (fun t => !t.isEmpty && 10 < t.length)

end ContentProcessor

namespace TranslationValidator

open ContentProcessor

/-- `TranslationValidator._validate_basic_requirements`. -/
def validate_basic_requirements (parse : List Char → SoupDoc)
    (original translated : List Char) : Bool :=
  if original.isEmpty || translated.isEmpty then false
  else if !is_valid_content parse original then false
  else if !is_valid_content parse translated then false
  else true

/-- `TranslationValidator._validate_length_ratio`: visible-text lengths,
the ratio `len(trans_text)/len(orig_text)` must lie in `[0.3, 3.0]`; empty
visible text on either side fails first.  The two ratio tests are embedded
exactly by cross-multiplication (`ratio < 0.3` as
`10·len(trans) < 3·len(orig)`, `ratio > 3.0` as `len(trans) > 3·len(orig)`),
equivalent because `len(orig_text) > 0` holds whenever they are reached. -/
def validate_length_ratio (parse : List Char → SoupDoc)
    (original translated : List Char) : Bool :=
  if (parse original).text.isEmpty || (parse translated).text.isEmpty then false
  else if 10 * (parse translated).text.length < 3 * (parse original).text.length
      || (parse translated).text.length > 3 * (parse original).text.length then false
  else true

/-- `TranslationValidator._validate_structure`: all-tag counts, zero on
either side fails first, else `min/max ≥ 0.5`.  The ratio test
`min/max < 0.5` is embedded exactly as `2·min < max`, equivalent because
`max > 0` holds whenever it is reached. -/
def validate_structure (parse : List Char → SoupDoc)
    (original translated : List Char) : Bool :=
  if (parse original).tagNames.length = 0
      || (parse translated).tagNames.length = 0 then false
  else if 2 * min (parse original).tagNames.length (parse translated).tagNames.length
      < max (parse original).tagNames.length (parse translated).tagNames.length
    then false
  else true

/-- `TranslationValidator._validate_content_blocks`: extracted text blocks,
zero on either side fails first, else `min/max ≥ 0.5`, embedded exactly as
`¬(2·min < max)` (the count `max` is positive whenever the test is
reached). -/
def validate_content_blocks (parse : List Char → SoupDoc)
    (original translated : List Char) : Bool :=
  if (extract_text_blocks parse original).isEmpty
      || (extract_text_blocks parse translated).isEmpty then false
  else if 2 * min (extract_text_blocks parse original).length
        (extract_text_blocks parse translated).length
      < max (extract_text_blocks parse original).length
        (extract_text_blocks parse translated).length
    then false
  else true

/-- `TranslationValidator.validate_translation`: the four stages in order,
the first failing one short-circuiting to `False`. -/
def validate_translation (parse : List Char → SoupDoc)
    (original translated : List Char) : Bool :=
  if !validate_basic_requirements parse original translated then false
  else if !validate_length_ratio parse original translated then false
  else if !validate_structure parse original translated then false
  else if !validate_content_blocks parse original translated then false
  else true

/-- Modelled from the spec's words, for comparison with
`validate_translation` (claim C6), with stage 4 exactly as the claim states
it: a block is the text inside a block-level element of **at least 10**
characters. -/
def specValidateStated (parse : List Char → SoupDoc)
    (original translated : List Char) : Bool :=
  (!original.isEmpty && !translated.isEmpty
      && is_valid_content parse original && is_valid_content parse translated)
    &&
  (decide (3 * (parse original).text.length ≤ 10 * (parse translated).text.length)
    && decide ((parse translated).text.length ≤ 3 * (parse original).text.length))
    &&
  (!((parse original).tagNames.length = 0)
    && !((parse translated).tagNames.length = 0)
    && decide (max (parse original).tagNames.length (parse translated).tagNames.length
        ≤ 2 * min (parse original).tagNames.length (parse translated).tagNames.length))
    &&
  (!((parse original).blockTexts.filter (fun b => 10 ≤ b.length)).isEmpty
    && !((parse translated).blockTexts.filter (fun b => 10 ≤ b.length)).isEmpty
    && decide (max ((parse original).blockTexts.filter (fun b => 10 ≤ b.length)).length
          ((parse translated).blockTexts.filter (fun b => 10 ≤ b.length)).length
        ≤ 2 * min ((parse original).blockTexts.filter (fun b => 10 ≤ b.length)).length
          ((parse translated).blockTexts.filter (fun b => 10 ≤ b.length)).length))

/-- The claim C6 amended: identical to `specValidateStated` except that a
block must be **more than 10** characters long, as the code has it. -/
def specValidateAmended (parse : List Char → SoupDoc)
    (original translated : List Char) : Bool :=
  (!original.isEmpty && !translated.isEmpty
      && is_valid_content parse original && is_valid_content parse translated)
    &&
  (decide (3 * (parse original).text.length ≤ 10 * (parse translated).text.length)
    && decide ((parse translated).text.length ≤ 3 * (parse original).text.length))
    &&
  (!((parse original).tagNames.length = 0)
    && !((parse translated).tagNames.length = 0)
    && decide (max (parse original).tagNames.length (parse translated).tagNames.length
        ≤ 2 * min (parse original).tagNames.length (parse translated).tagNames.length))
    &&
  (!((parse original).blockTexts.filter (fun b => !b.isEmpty && 10 < b.length)).isEmpty
    && !((parse translated).blockTexts.filter (fun b => !b.isEmpty && 10 < b.length)).isEmpty
    && decide (max ((parse original).blockTexts.filter
            (fun b => !b.isEmpty && 10 < b.length)).length
          ((parse translated).blockTexts.filter
            (fun b => !b.isEmpty && 10 < b.length)).length
        ≤ 2 * min ((parse original).blockTexts.filter
            (fun b => !b.isEmpty && 10 < b.length)).length
          ((parse translated).blockTexts.filter
            (fun b => !b.isEmpty && 10 < b.length)).length))

end TranslationValidator

/-! Concrete parser outcomes used to evaluate the validator on closed inputs.
They describe plausible HTML documents: `cdocA` two `<p>` blocks of exactly
10 characters each, `cdocB` one `<p>` block of 11 characters, `cdocC` two
5-character blocks, `cdocW` one 12-character block. -/

/-- Original document of the C6 evaluation:
`<p id="aaaaaaaaaaaaaaaaa">0123456789</p><p>0123456789</p>` (57 chars). -/
def corigC6 : List Char :=
  "<p id=\"aaaaaaaaaaaaaaaaa\">0123456789</p><p>0123456789</p>".toList

/-- Translated document of the C6 evaluation:
`<p id="aa…aa">01234567890</p>` (50 chars). -/
def ctransC6 : List Char :=
  "<p id=\"aaaaaaaaaaaaaaaaaaaaaaaaaa\">01234567890</p>".toList

/-- Parse outcome of `corigC6`: visible text of 20 characters, two `p`
elements, two block texts of exactly 10 characters. -/
def cdocA : SoupDoc :=
  ⟨"01234567890123456789".toList, ["p", "p"],
    ["0123456789".toList, "0123456789".toList]⟩

/-- Parse outcome of `ctransC6`: visible text of 11 characters, one `p`
element, one block text of 11 characters. -/
def cdocB : SoupDoc :=
  ⟨"01234567890".toList, ["p"], ["01234567890".toList]⟩

/-- The parser restricted to the two C6 documents. -/
def cparseC6 : List Char → SoupDoc :=
  fun c => if c = corigC6 then cdocA else cdocB

/-- The X of the C7 evaluation:
`<p class="aaaaaaaaaaaaaaaaaaaaaaaaaa">01234</p><p>56789</p>` (59 chars). -/
def cXC7 : List Char :=
  "<p class=\"aaaaaaaaaaaaaaaaaaaaaaaaaa\">01234</p><p>56789</p>".toList

/-- Parse outcome of `cXC7`: visible text of 10 characters, two `p`
elements, two block texts of 5 characters (none longer than 10). -/
def cdocC : SoupDoc :=
  ⟨"0123456789".toList, ["p", "p"], ["01234".toList, "56789".toList]⟩

/-- A document with one block text of 12 characters, used as the C7 witness:
`<p class="aaaaaaaaaaaaaaaaaaaaaaaaaa">0123456789ab</p>` (55 chars). -/
def cXW : List Char :=
  "<p class=\"aaaaaaaaaaaaaaaaaaaaaaaaaa\">0123456789ab</p>".toList

/-- Parse outcome of `cXW`. -/
def cdocW : SoupDoc :=
  ⟨"0123456789ab".toList, ["p"], ["0123456789ab".toList]⟩

/-! ## Supporting lemmas -/

namespace TranslationRetryHandler

lemma retryGo_ok {T : Type} (f : Nat → Except Unit T) (v : T) :
    ∀ (k s n : Nat), (∀ i, i < k → f (s + i) = Except.error ()) →
      f (s + k) = Except.ok v → k < n → retryGo f s n = some v := by
  intro k
  induction k with
  | zero =>
    intro s n _ hk hn
    obtain ⟨m, rfl⟩ := Nat.exists_eq_succ_of_ne_zero (Nat.pos_iff_ne_zero.mp hn)
    simp only [retryGo]
    rw [show f s = Except.ok v from by simpa using hk]
  | succ k ih =>
    intro s n herr hk hn
    obtain ⟨m, rfl⟩ := Nat.exists_eq_succ_of_ne_zero
      (Nat.pos_iff_ne_zero.mp (Nat.lt_of_le_of_lt (Nat.zero_le _) hn))
    simp only [retryGo]
    rw [show f s = Except.error () from by simpa using herr 0 (Nat.succ_pos k)]
    exact ih (s + 1) m
      (fun i hi => by
        rw [show s + 1 + i = s + (i + 1) from by omega]
        exact herr (i + 1) (by omega))
      (by rw [show s + 1 + k = s + (k + 1) from by omega]; exact hk)
      (by omega)

lemma retryGo_none {T : Type} (f : Nat → Except Unit T) :
    ∀ (n s : Nat), (∀ i, i < n → f (s + i) = Except.error ()) →
      retryGo f s n = none := by
  intro n
  induction n with
  | zero => intro s _; rfl
  | succ n ih =>
    intro s herr
    simp only [retryGo]
    rw [show f s = Except.error () from by simpa using herr 0 (Nat.succ_pos n)]
    exact ih (s + 1) (fun i hi => by
      rw [show s + 1 + i = s + (i + 1) from by omega]
      exact herr (i + 1) (by omega))

end TranslationRetryHandler

/-! ## Claim C4 -/

/-- C4: wrapping `f` with `TranslationRetryHandler.with_retry` at parameter
`max_retries`: if `f` raises on exactly the first `k` calls with
`k < max_retries` and then returns `v`, the wrapped call returns `some v`;
if `f` raises on the first `max_retries + 1` consecutive calls, the wrapped
call returns `none` and no exception escapes. -/
theorem C4_with_retry {T : Type} (max_retries k : Nat)
    (f : Nat → Except Unit T) (v : T) :
    ((∀ i, i < k → f i = Except.error ()) → f k = Except.ok v →
      k < max_retries → TranslationRetryHandler.with_retry max_retries f = some v)
    ∧ ((∀ i, i ≤ max_retries → f i = Except.error ()) →
      TranslationRetryHandler.with_retry max_retries f = none) := by
  constructor
  · intro herr hk hlt
    exact TranslationRetryHandler.retryGo_ok f v k 0 (max_retries + 1)
      (fun i hi => by simpa using herr i hi) (by simpa using hk) (by omega)
  · intro herr
    exact TranslationRetryHandler.retryGo_none f (max_retries + 1) 0
      (fun i hi => by simpa using herr i (by omega))

/-- Witness for C4 at `max_retries = 2`: a function failing exactly once then
returning `7`, and a function failing on every call. -/
theorem C4_with_retry_witness :
    TranslationRetryHandler.with_retry 2
        (fun i => if i = 0 then Except.error () else Except.ok (7 : Nat)) = some 7
    ∧ TranslationRetryHandler.with_retry 2
        (fun _ => (Except.error () : Except Unit Nat)) = none :=
  ⟨(C4_with_retry 2 1 (fun i => if i = 0 then Except.error () else Except.ok (7 : Nat)) 7).1
      (fun i hi => by have h0 : i = 0 := by omega
                      subst h0; rfl)
      rfl (by decide),
    (C4_with_retry 2 0 (fun _ => (Except.error () : Except Unit Nat)) 0).2 (fun i _ => rfl)⟩

/-! ## Claim C9 -/

/-- C9: after `_record_request_time` with a clock that never runs backwards,
every retained timestamp lies within 60 seconds of the just-recorded
timestamp (older entries are trimmed), and the stored list stays in
non-decreasing order. -/
theorem C9_record_request_time (prev : List ℚ) (current_time : ℚ)
    (hsorted : prev.Sorted (· ≤ ·)) (hmono : ∀ t ∈ prev, t ≤ current_time) :
    (TranslationRetryHandler.record_request_time prev current_time).Sorted (· ≤ ·)
    ∧ ∀ t ∈ TranslationRetryHandler.record_request_time prev current_time,
        current_time - t < 60 ∧ t ≤ current_time := by
  unfold TranslationRetryHandler.record_request_time
  constructor
  · apply List.Pairwise.filter
    rw [List.pairwise_append]
    exact ⟨hsorted, List.pairwise_singleton _ _,
      fun a ha b hb => by rw [List.mem_singleton] at hb; exact hb ▸ hmono a ha⟩
  · intro t ht
    rw [List.mem_filter] at ht
    obtain ⟨hmem, hcut⟩ := ht
    have hcut2 : current_time - 60 < t := by simpa using hcut
    refine ⟨by linarith, ?_⟩
    rw [List.mem_append] at hmem
    rcases hmem with h | h
    · exact hmono t h
    · rw [List.mem_singleton] at h; exact h ▸ le_refl _

/-- Witness for C9 at a concrete state: timestamps `[1, 30]`, new call at
time `61`; the entry `1` is trimmed, `[30, 61]` is retained. -/
theorem C9_record_request_time_witness :
    (TranslationRetryHandler.record_request_time [1, 30] 61).Sorted (· ≤ ·)
    ∧ ∀ t ∈ TranslationRetryHandler.record_request_time [1, 30] 61,
        (61 : ℚ) - t < 60 ∧ t ≤ 61 :=
  C9_record_request_time [1, 30] 61 (by decide) (by decide)

/-! ## Claim C5 -/

/-- C5 counterexample: on whitespace-only input, `_translate_text` returns
`None` (`Except.ok none`) — a silently absent value, not an error signal:
no `Except.error` (the model of a raised `TranslationError`) is produced,
even with a network that always fails. -/
theorem C5_counterexample :
    TranslationService.translate_text (fun _ => Except.error ()) " ".toList
        = Except.ok none
    ∧ ∀ e : Unit,
        (Except.error e : Except Unit (Option (List Char))) ≠ Except.ok none := by
  exact ⟨rfl, fun e h => by cases h⟩

/-- C5 amended: for empty or whitespace-only input, `_translate_text`
short-circuits to the no-result signal `None` without consulting the network
(the result is the same for every network behaviour); it does not raise a
`TranslationError`. -/
theorem C5_amended (net net2 : List Char → Except Unit (List Char))
    (text : List Char) (h : (strip text).isEmpty = true) :
    TranslationService.translate_text net text = Except.ok none
    ∧ TranslationService.translate_text net text
        = TranslationService.translate_text net2 text := by
  unfold TranslationService.translate_text
  rw [h]
  exact ⟨rfl, rfl⟩

/-- Witness for C5 at the two-space input with two distinct networks. -/
theorem C5_amended_witness :
    TranslationService.translate_text (fun l => Except.ok l) "  ".toList
        = Except.ok none
    ∧ TranslationService.translate_text (fun l => Except.ok l) "  ".toList
        = TranslationService.translate_text (fun _ => Except.error ()) "  ".toList :=
  C5_amended (fun l => Except.ok l) (fun _ => Except.error ()) "  ".toList (by decide)

/-! ## Claim C3 -/

namespace ParallelTranslationService

lemma translateLoop_ok (tr : List Char → Except Unit (Option (List Char))) :
    ∀ batch : List (Nat × List Char),
      (∀ p ∈ batch, tr p.2 ≠ Except.error ()) →
      translateLoop tr batch = Except.ok (batch.filterMap (fun p =>
        match tr p.2 with
        | Except.ok (some t) => if t.isEmpty then none else some (p.1, t)
        | _ => none)) := by
  intro batch
  induction batch with
  | nil => intro _; rfl
  | cons q rest ih =>
    intro h
    obtain ⟨idx, chunk⟩ := q
    have hok : tr chunk ≠ Except.error () :=
      h (idx, chunk) (List.mem_cons_self _ _)
    have ihr := ih (fun p hp => h p (List.mem_cons_of_mem _ hp))
    rw [List.filterMap_cons]
    simp only [translateLoop]
    cases htr : tr chunk with
    | error e => exact absurd (by cases e; exact htr) hok
    | ok v =>
      cases v with
      | none => simpa [htr] using ihr
      | some t =>
        by_cases hemp : t.isEmpty = true
        · simpa [htr, hemp] using ihr
        · rw [Bool.not_eq_true] at hemp
          simp only [htr, hemp, Bool.false_eq_true, if_false, ihr]
          rfl

lemma translateLoop_error (tr : List Char → Except Unit (Option (List Char))) :
    ∀ batch : List (Nat × List Char),
      (∃ p ∈ batch, tr p.2 = Except.error ()) →
      translateLoop tr batch = Except.error () := by
  intro batch
  induction batch with
  | nil => rintro ⟨p, hp, -⟩; cases hp
  | cons q rest ih =>
    rintro ⟨p, hp, herr⟩
    obtain ⟨idx, chunk⟩ := q
    simp only [translateLoop]
    cases htr : tr chunk with
    | error e => cases e; rfl
    | ok v =>
      have hprest : p ∈ rest := by
        rcases List.mem_cons.mp hp with rfl | hmem
        · rw [htr] at herr; cases herr
        · exact hmem
      have ihe := ih ⟨p, hprest, herr⟩
      cases v with
      | none => exact ihe
      | some t =>
        by_cases hemp : t.isEmpty = true
        · simpa [hemp] using ihe
        · rw [Bool.not_eq_true] at hemp
          simp [hemp, ihe, Except.map]

end ParallelTranslationService

/-- C3 counterexample: in `ParallelTranslationService._translate_batch`, a
batch `[(0, "a"), (1, "b")]` where translating `"a"` raises (even after
retries) and translating `"b"` succeeds with `"B"` yields `None`: the whole
batch is dropped, so the translated text of the *other* chunk, `(1, "B")`,
is *not* collected, contradicting the claim that only the failed chunk's
index is dropped. -/
theorem C3_counterexample :
    ¬ ∃ r : String × List (Nat × List Char),
      ParallelTranslationService.translate_batch
        (fun c => if c = ['a'] then Except.error () else Except.ok (some ['B']))
        "part" [(0, ['a']), (1, ['b'])] = some r ∧ (1, ['B']) ∈ r.2 := by
  rintro ⟨r, hr, -⟩
  have hnone : ParallelTranslationService.translate_batch
      (fun c => if c = ['a'] then Except.error () else Except.ok (some ['B']))
      "part" [(0, ['a']), (1, ['b'])] = none := by rfl
  rw [hnone] at hr
  cases hr

/-- C3 amended: `_translate_batch` translates each chunk of the batch by
calling `TranslationService._translate_text` directly (not through the
retry/rate-limit wrapper).  If no chunk raises, the batch returns the pairs
of the chunks with a truthy result, skipping individually the chunks whose
translation returned `None` or the empty string; but if translating any
chunk raises an exception, the whole batch returns `None` and every chunk of
the batch (including the successfully translated ones) is dropped. -/
theorem C3_amended (tr : List Char → Except Unit (Option (List Char)))
    (content_id : String) (chunk_batch : List (Nat × List Char)) :
    ((∀ p ∈ chunk_batch, tr p.2 ≠ Except.error ()) →
      ParallelTranslationService.translate_batch tr content_id chunk_batch =
        some (content_id, chunk_batch.filterMap (fun p =>
          match tr p.2 with
          | Except.ok (some t) => if t.isEmpty then none else some (p.1, t)
          | _ => none)))
    ∧ ((∃ p ∈ chunk_batch, tr p.2 = Except.error ()) →
      ParallelTranslationService.translate_batch tr content_id chunk_batch = none) := by
  constructor
  · intro h
    unfold ParallelTranslationService.translate_batch
    rw [ParallelTranslationService.translateLoop_ok tr chunk_batch h]
  · intro h
    unfold ParallelTranslationService.translate_batch
    rw [ParallelTranslationService.translateLoop_error tr chunk_batch h]

/-- Witness for C3 amended: a batch whose first chunk returns no result and
whose second succeeds keeps exactly the second; a batch with a raising chunk
returns `None`. -/
theorem C3_amended_witness :
    ParallelTranslationService.translate_batch
        (fun c => if c = ['x'] then Except.ok none else Except.ok (some ['Y']))
        "part" [(0, ['x']), (1, ['b'])] = some ("part", [(1, ['Y'])])
    ∧ ParallelTranslationService.translate_batch
        (fun _ => (Except.error () : Except Unit (Option (List Char))))
        "part" [(0, ['x'])] = none := by
  constructor
  · have h := (C3_amended
      (fun c => if c = ['x'] then Except.ok none else Except.ok (some ['Y']))
      "part" [(0, ['x']), (1, ['b'])]).1
      (by intro p hp
          rcases List.mem_cons.mp hp with rfl | hp2
          · intro hc; rw [if_pos rfl] at hc; cases hc
          · rw [List.mem_singleton] at hp2
            subst hp2
            intro hc
            rw [if_neg (by decide)] at hc
            cases hc)
    rw [h]
    rfl
  · exact (C3_amended (fun _ => (Except.error () : Except Unit (Option (List Char))))
      "part" [(0, ['x'])]).2 ⟨(0, ['x']), List.mem_singleton_self _, rfl⟩

/-! ## Claim C10 -/

lemma chunksOfGo_join {α : Type} (n : Nat) :
    ∀ (fuel : Nat) (l : List α), (chunksOfGo n fuel l).flatten = l := by
  intro fuel
  induction fuel with
  | zero =>
    intro l
    cases l with
    | nil => rfl
    | cons a l => simp [chunksOfGo]
  | succ fuel ih =>
    intro l
    cases l with
    | nil => rfl
    | cons a l =>
      show (List.take n (a :: l) :: chunksOfGo n fuel (List.drop n (a :: l))).flatten
          = a :: l
      rw [List.flatten_cons, ih, List.take_append_drop]

lemma translate_batch_eq_map (tr : List Char → Option (List Char))
    (batch_size : Nat) (texts : List (List Char)) :
    TranslationService.translate_batch tr batch_size texts
      = texts.map (TranslationService.fallbackEntry tr) := by
  unfold TranslationService.translate_batch
  rw [List.flatMap_def, ← List.map_flatten, chunksOfGo_join]

/-- C10: the repository holds both failure policies for an untranslatable
unit.  `TranslationService.translate_batch` returns a list of the same
length as its input in which every text whose translation produced no result
appears unchanged (silent fallback, never a missing entry), while
`ParallelTranslationService._combine_results` omits a failed chunk from the
reassembled part text entirely (here: part with chunks 0 and 1 where only
chunk 0 translated to `t` — the output is just `t`, no placeholder). -/
theorem C10_both_policies (tr : List Char → Option (List Char))
    (batch_size : Nat) (texts : List (List Char)) (cid : String) (t : List Char)
    (hbs : 1 ≤ batch_size) (ht : t ≠ []) :
    (TranslationService.translate_batch tr batch_size texts).length = texts.length
    ∧ (∀ i, i < texts.length → tr (texts.getD i []) = none →
        (TranslationService.translate_batch tr batch_size texts).getD i []
          = texts.getD i [])
    ∧ ParallelTranslationService.combine_results [(cid, 2)] [(cid, (0, t))]
        = [(cid, t)] := by
  refine ⟨?_, ?_, ?_⟩
  · rw [translate_batch_eq_map, List.length_map]
  · intro i hi htr
    rw [translate_batch_eq_map]
    have hget : texts.getD i [] = texts[i] := List.getD_eq_getElem texts [] hi
    have hmap : (texts.map (TranslationService.fallbackEntry tr)).getD i []
        = TranslationService.fallbackEntry tr texts[i] := by
      have hi2 : i < (texts.map (TranslationService.fallbackEntry tr)).length := by
        rw [List.length_map]; exact hi
      rw [List.getD_eq_getElem _ [] hi2, List.getElem_map]
    rw [hmap, hget]
    unfold TranslationService.fallbackEntry
    rw [hget] at htr
    rw [htr]
  · have hne : (ParallelTranslationService.partEntries [(cid, (0, t))] cid).isEmpty
        = false := by
      unfold ParallelTranslationService.partEntries
      simp
    unfold ParallelTranslationService.combine_results
    rw [List.filterMap_cons]
    simp only [hne, Bool.false_eq_true, if_false, List.filterMap_nil]
    have hdict : ∀ i : Nat,
        ParallelTranslationService.partDict [(cid, (0, t))] cid i
          = if i = 0 then some t else none := by
      intro i
      unfold ParallelTranslationService.partDict ParallelTranslationService.partEntries
      simp [ParallelTranslationService.insertResult]
    have htt : (!t.isEmpty) = true := by simpa using ht
    have hrange : (List.range 2).map
        (fun i => (ParallelTranslationService.partDict [(cid, (0, t))] cid i).getD [])
          = [t, []] := by
      rw [show List.range 2 = [0, 1] from rfl]
      simp [hdict]
    rw [hrange]
    have hfil : ([t, []].filter (fun c : List Char => !c.isEmpty)) = [t] := by
      simp [List.filter_cons, htt]
    rw [hfil]
    rfl

/-! ## Chunker lemmas (claims C2 and C8) -/

namespace TextChunker

lemma nonWs_append (l1 l2 : List Char) : nonWs (l1 ++ l2) = nonWs l1 ++ nonWs l2 :=
  List.filter_append _ _

lemma nonWs_cons_split (c : Char) (cs : List Char) :
    nonWs (c :: cs) = nonWs [c] ++ nonWs cs := by
  show nonWs ([c] ++ cs) = _
  exact nonWs_append [c] cs

lemma nonWs_cons_ws (c : Char) (cs : List Char) (h : pySpace c = true) :
    nonWs (c :: cs) = nonWs cs := by
  unfold nonWs
  rw [List.filter_cons]
  simp [h]

lemma nonWs_eq_nil (l : List Char) (h : ∀ x ∈ l, pySpace x = true) :
    nonWs l = [] := by
  unfold nonWs
  rw [List.filter_eq_nil_iff]
  intro a ha
  simp [h a ha]

lemma nonWs_dropWhile (l : List Char) : nonWs (l.dropWhile pySpace) = nonWs l := by
  induction l with
  | nil => rfl
  | cons c cs ih =>
    rw [List.dropWhile_cons]
    by_cases hc : pySpace c = true
    · rw [if_pos hc, ih, nonWs_cons_ws c cs hc]
    · rw [if_neg hc]

lemma nonWs_reverse (l : List Char) : nonWs l.reverse = (nonWs l).reverse :=
  List.filter_reverse _ _

lemma nonWs_strip (l : List Char) : nonWs (strip l) = nonWs l := by
  unfold strip
  rw [nonWs_reverse, nonWs_dropWhile, nonWs_reverse, nonWs_dropWhile,
    List.reverse_reverse]

lemma nwJoin_nil : nwJoin [] = [] := rfl

lemma nwJoin_cons (p : List Char) (ps : List (List Char)) :
    nwJoin (p :: ps) = nonWs p ++ nwJoin ps := rfl

lemma nwJoin_append (a b : List (List Char)) :
    nwJoin (a ++ b) = nwJoin a ++ nwJoin b := by
  unfold nwJoin
  rw [List.map_append, List.flatten_append]

lemma nwJoin_singleton (p : List Char) : nwJoin [p] = nonWs p := by
  unfold nwJoin
  simp

lemma nonWs_joinSep (s : Char) (hs : pySpace s = true) :
    ∀ ps, nonWs (joinSep s ps) = nwJoin ps := by
  intro ps
  induction ps with
  | nil => rfl
  | cons p ps ih =>
    cases ps with
    | nil => rw [nwJoin_singleton]; rfl
    | cons q qs =>
      show nonWs (p ++ s :: joinSep s (q :: qs)) = _
      rw [nonWs_append, nonWs_cons_ws _ _ hs, ih]
      rfl

lemma splitAfterLastNl_subset :
    ∀ {cs r : List Char}, splitAfterLastNl cs = some r → ∀ x ∈ r, x ∈ cs := by
  intro cs
  induction cs with
  | nil => intro r h; cases h
  | cons c cs ih =>
    intro r h x hx
    unfold splitAfterLastNl at h
    cases hrec : splitAfterLastNl cs with
    | some r2 =>
      rw [hrec] at h
      cases h
      exact List.mem_cons_of_mem _ (ih hrec x hx)
    | none =>
      rw [hrec] at h
      by_cases hc : c = '\n'
      · rw [if_pos hc] at h
        cases h
        exact List.mem_cons_of_mem _ hx
      · rw [if_neg hc] at h
        cases h

lemma splitAfterLastNl_length :
    ∀ {cs r : List Char}, splitAfterLastNl cs = some r → r.length < cs.length := by
  intro cs
  induction cs with
  | nil => intro r h; cases h
  | cons c cs ih =>
    intro r h
    unfold splitAfterLastNl at h
    cases hrec : splitAfterLastNl cs with
    | some r2 =>
      rw [hrec] at h
      cases h
      exact Nat.lt_trans (ih hrec) (Nat.lt_succ_self _)
    | none =>
      rw [hrec] at h
      by_cases hc : c = '\n'
      · rw [if_pos hc] at h
        cases h
        exact Nat.lt_succ_self _
      · rw [if_neg hc] at h
        cases h

lemma sepMatch_nonWs :
    ∀ {l r : List Char}, sepMatch l = some r → nonWs r = nonWs l := by
  intro l r h
  cases l with
  | nil => cases h
  | cons c rest =>
    simp only [sepMatch] at h
    by_cases hc : c = '\n'
    · rw [if_pos hc] at h
      cases hsub : splitAfterLastNl (rest.takeWhile pySpace) with
      | none => rw [hsub] at h; cases h
      | some r2 =>
        rw [hsub] at h
        cases h
        have hws : ∀ x ∈ rest.takeWhile pySpace, pySpace x = true :=
          fun x hx => List.mem_takeWhile_imp hx
        have hr2 : nonWs r2 = [] :=
          nonWs_eq_nil _ (fun x hx => hws x (splitAfterLastNl_subset hsub x hx))
        have hrest : nonWs rest
            = nonWs (rest.takeWhile pySpace) ++ nonWs (rest.dropWhile pySpace) := by
          conv_lhs => rw [← List.takeWhile_append_dropWhile pySpace rest]
          exact nonWs_append _ _
        rw [nonWs_append, hr2, List.nil_append,
          nonWs_cons_ws _ _ (by rw [hc]; decide), hrest, nonWs_eq_nil _ hws,
          List.nil_append]
    · rw [if_neg hc] at h
      cases h

lemma sepMatch_length :
    ∀ {l r : List Char}, sepMatch l = some r → r.length + 2 ≤ l.length := by
  intro l r h
  cases l with
  | nil => cases h
  | cons c rest =>
    simp only [sepMatch] at h
    by_cases hc : c = '\n'
    · rw [if_pos hc] at h
      cases hsub : splitAfterLastNl (rest.takeWhile pySpace) with
      | none => rw [hsub] at h; cases h
      | some r2 =>
        rw [hsub] at h
        cases h
        have h1 : r2.length < (rest.takeWhile pySpace).length :=
          splitAfterLastNl_length hsub
        have h2 : (rest.takeWhile pySpace).length
            + (rest.dropWhile pySpace).length = rest.length := by
          rw [← List.length_append, List.takeWhile_append_dropWhile]
        rw [List.length_append, List.length_cons]
        omega
    · rw [if_neg hc] at h
      cases h

lemma splitParasGo_nwJoin :
    ∀ (fuel : Nat) (l cur : List Char),
      nwJoin (splitParasGo fuel l cur) = nonWs cur.reverse ++ nonWs l := by
  intro fuel
  induction fuel with
  | zero =>
    intro l cur
    show nwJoin [cur.reverse ++ l] = _
    rw [nwJoin_singleton, nonWs_append]
  | succ fuel ih =>
    intro l cur
    cases l with
    | nil =>
      show nwJoin [cur.reverse] = _
      rw [nwJoin_singleton]
      simp [nonWs]
    | cons c cs =>
      show nwJoin (match sepMatch (c :: cs) with
        | some r => cur.reverse :: splitParasGo fuel r []
        | none => splitParasGo fuel cs (c :: cur)) = _
      cases hm : sepMatch (c :: cs) with
      | some r =>
        rw [nwJoin_cons, ih r [], sepMatch_nonWs hm]
        simp [nonWs]
      | none =>
        rw [ih cs (c :: cur), List.reverse_cons, nonWs_append,
          nonWs_cons_split c cs, List.append_assoc]

lemma splitMarksGo_nwJoin (marks : List Char) :
    ∀ (fuel : Nat) (l cur : List Char),
      nwJoin (splitMarksGo marks fuel l cur) = nonWs cur.reverse ++ nonWs l := by
  intro fuel
  induction fuel with
  | zero =>
    intro l cur
    show nwJoin [cur.reverse ++ l] = _
    rw [nwJoin_singleton, nonWs_append]
  | succ fuel ih =>
    intro l cur
    cases l with
    | nil =>
      show nwJoin [cur.reverse] = _
      rw [nwJoin_singleton]
      simp [nonWs]
    | cons c cs =>
      show nwJoin (match cur.head? with
        | some m =>
          if marks.contains m && pySpace c then
            cur.reverse :: splitMarksGo marks fuel ((c :: cs).dropWhile pySpace) []
          else splitMarksGo marks fuel cs (c :: cur)
        | none => splitMarksGo marks fuel cs (c :: cur)) = _
      have hstep : nwJoin (splitMarksGo marks fuel cs (c :: cur))
          = nonWs cur.reverse ++ nonWs (c :: cs) := by
        rw [ih cs (c :: cur), List.reverse_cons, nonWs_append,
          nonWs_cons_split c cs, List.append_assoc]
      cases hh : cur.head? with
      | none => exact hstep
      | some m =>
        show nwJoin (if marks.contains m && pySpace c then
            cur.reverse :: splitMarksGo marks fuel ((c :: cs).dropWhile pySpace) []
          else splitMarksGo marks fuel cs (c :: cur)) = _
        by_cases hcond : (marks.contains m && pySpace c) = true
        · rw [if_pos hcond, nwJoin_cons, ih _ [], nonWs_dropWhile]
          simp [nonWs]
        · rw [if_neg hcond]
          exact hstep

lemma nwJoin_filter_nonempty (ls : List (List Char)) :
    nwJoin (ls.filter (fun p => !p.isEmpty)) = nwJoin ls := by
  induction ls with
  | nil => rfl
  | cons p ls ih =>
    rw [List.filter_cons]
    by_cases hp : p.isEmpty = true
    · have hnil : p = [] := List.isEmpty_iff.mp hp
      simp only [hp, Bool.not_true, Bool.false_eq_true, if_false]
      rw [ih, nwJoin_cons, hnil]
      rfl
    · have hb : (!p.isEmpty) = true := by simp [hp]
      simp only [hb, if_true]
      rw [nwJoin_cons, nwJoin_cons, ih]

lemma nwJoin_map_strip (ls : List (List Char)) :
    nwJoin (ls.map strip) = nwJoin ls := by
  unfold nwJoin
  rw [List.map_map]
  congr 1
  exact List.map_congr_left (fun p _ => nonWs_strip p)

lemma split_into_paragraphs_nwJoin (text : List Char) :
    nwJoin (split_into_paragraphs text) = nonWs text := by
  unfold split_into_paragraphs
  rw [nwJoin_filter_nonempty, nwJoin_map_strip, splitParasGo_nwJoin]
  simp [nonWs]

lemma accumGo_nwJoin (sep : Char) (big : List Char → List (List Char)) (N : Nat)
    (hsep : pySpace sep = true)
    (hbig : ∀ p, nwJoin (big p) = nonWs p) :
    ∀ (pieces cur : List (List Char)) (size : Nat),
      nwJoin (accumGo sep big N pieces cur size) = nwJoin cur ++ nwJoin pieces := by
  intro pieces
  induction pieces with
  | nil =>
    intro cur size
    by_cases hc : cur.isEmpty = true
    · have : cur = [] := List.isEmpty_iff.mp hc
      simp [accumGo, hc, this, nwJoin_nil]
    · simp only [accumGo, hc, Bool.false_eq_true, if_false]
      rw [nwJoin_singleton, nonWs_joinSep sep hsep]
      rw [nwJoin_nil, List.append_nil]
  | cons p rest ih =>
    intro cur size
    show nwJoin (if N < p.length then
        (if cur.isEmpty then [] else [joinSep sep cur]) ++ big p
          ++ accumGo sep big N rest [] 0
      else if N < size + p.length then
        joinSep sep cur :: accumGo sep big N rest [p] p.length
      else accumGo sep big N rest (cur ++ [p]) (size + p.length)) = _
    by_cases h1 : N < p.length
    · rw [if_pos h1, nwJoin_append, nwJoin_append, hbig, ih [] 0]
      have hflush : nwJoin (if cur.isEmpty then [] else [joinSep sep cur])
          = nwJoin cur := by
        by_cases hc : cur.isEmpty = true
        · have : cur = [] := List.isEmpty_iff.mp hc
          simp [hc, this, nwJoin_nil]
        · simp only [hc, Bool.false_eq_true, if_false]
          rw [nwJoin_singleton, nonWs_joinSep sep hsep]
      rw [hflush]
      simp only [nwJoin_cons, nwJoin_nil, List.nil_append, List.append_assoc]
    · rw [if_neg h1]
      by_cases h2 : N < size + p.length
      · rw [if_pos h2, nwJoin_cons, ih [p] p.length, nonWs_joinSep sep hsep]
        simp only [nwJoin_cons, nwJoin_singleton, nwJoin_nil, List.nil_append,
          List.append_nil, List.append_assoc]
      · rw [if_neg h2, ih (cur ++ [p]) (size + p.length), nwJoin_append]
        simp only [nwJoin_cons, nwJoin_singleton, nwJoin_nil, List.nil_append,
          List.append_nil, List.append_assoc]

lemma chunksOfGo_nwJoin (n fuel : Nat) (l : List Char) :
    nwJoin (chunksOfGo n fuel l) = nonWs l := by
  have hflt : nonWs ((chunksOfGo n fuel l).flatten) = nwJoin (chunksOfGo n fuel l) := by
    unfold nonWs nwJoin
    exact List.filter_flatten _ _
  rw [← hflt, chunksOfGo_join]

lemma split_sentence_nwJoin (N : Nat) (s : List Char) :
    nwJoin (split_sentence N s) = nonWs s := by
  unfold split_sentence
  rw [accumGo_nwJoin _ _ _ (by decide) (fun p => chunksOfGo_nwJoin N p.length p),
    splitMarksGo_nwJoin]
  simp [nonWs, nwJoin_nil]

lemma split_paragraph_nwJoin (N : Nat) (p : List Char) :
    nwJoin (split_paragraph N p) = nonWs p := by
  unfold split_paragraph
  rw [accumGo_nwJoin _ _ _ (by decide) (split_sentence_nwJoin N),
    splitMarksGo_nwJoin]
  simp [nonWs, nwJoin_nil]

lemma sumLens_append (a b : List (List Char)) :
    sumLens (a ++ b) = sumLens a + sumLens b := by
  unfold sumLens
  rw [List.map_append, List.sum_append]

lemma sumLens_cons (p : List Char) (ps : List (List Char)) :
    sumLens (p :: ps) = p.length + sumLens ps := rfl

lemma sumLens_singleton (p : List Char) : sumLens [p] = p.length := by
  simp [sumLens]

lemma length_le_sumLens :
    ∀ ps : List (List Char), (∀ p ∈ ps, p ≠ []) → ps.length ≤ sumLens ps := by
  intro ps
  induction ps with
  | nil => intro _; exact Nat.le_refl 0
  | cons p ps ih =>
    intro h
    rw [List.length_cons, sumLens_cons]
    have hp : 1 ≤ p.length := by
      have := h p (List.mem_cons_self _ _)
      cases p with
      | nil => exact absurd rfl this
      | cons a l => simp
    have := ih (fun q hq => h q (List.mem_cons_of_mem _ hq))
    omega

lemma joinSep_length (s : Char) :
    ∀ ps : List (List Char), ps ≠ [] →
      (joinSep s ps).length + 1 = sumLens ps + ps.length := by
  intro ps
  induction ps with
  | nil => intro h; exact absurd rfl h
  | cons p ps ih =>
    intro _
    cases ps with
    | nil => simp [joinSep, sumLens_singleton]
    | cons q qs =>
      show (p ++ s :: joinSep s (q :: qs)).length + 1 = _
      rw [List.length_append, List.length_cons, sumLens_cons, List.length_cons]
      have := ih (by simp)
      omega

lemma joinSep_length_le (s : Char) (ps : List (List Char)) (N : Nat)
    (hne : ps ≠ []) (hall : ∀ p ∈ ps, p ≠ []) (hsum : sumLens ps ≤ N) :
    (joinSep s ps).length + 1 ≤ 2 * N := by
  have h1 := joinSep_length s ps hne
  have h2 := length_le_sumLens ps hall
  omega

lemma length_dropWhile_le (p : Char → Bool) (l : List Char) :
    (l.dropWhile p).length ≤ l.length := by
  induction l with
  | nil => exact Nat.le_refl 0
  | cons c cs ih =>
    rw [List.dropWhile_cons]
    by_cases hc : p c = true
    · rw [if_pos hc]
      exact Nat.le_trans ih (Nat.le_succ _)
    · rw [if_neg hc]

lemma chunksOfGo_bound (n : Nat) (hn : 1 ≤ n) :
    ∀ (fuel : Nat) (l : List Char), l.length ≤ fuel →
      ∀ c ∈ chunksOfGo n fuel l, c.length ≤ n := by
  intro fuel
  induction fuel with
  | zero =>
    intro l hlen c hc
    rw [List.length_eq_zero.mp (Nat.le_zero.mp hlen)] at hc
    cases hc
  | succ fuel ih =>
    intro l hlen c hc
    cases l with
    | nil => cases hc
    | cons a l2 =>
      rcases List.mem_cons.mp hc with rfl | hc2
      · rw [List.length_take]
        omega
      · apply ih _ _ c hc2
        rw [List.length_drop, List.length_cons]
        rw [List.length_cons] at hlen
        omega

lemma getLastD_reverse (l : List Char) (d : Char) :
    l.reverse.getLastD d = l.headD d := by
  rw [List.getLastD_eq_getLast?, List.getLast?_reverse, List.headD_eq_head?_getD]

lemma getLastD_irrel (l : List Char) (a b : Char) (h : l ≠ []) :
    l.getLastD a = l.getLastD b := by
  cases l with
  | nil => exact absurd rfl h
  | cons c cs => rw [List.getLastD_cons, List.getLastD_cons]

lemma endsOk_tail (c : Char) (cs : List Char) (h : cs ≠ []) :
    endsOk (c :: cs) = endsOk cs := by
  unfold endsOk
  rw [List.getLastD_cons, getLastD_irrel cs c '.' h]

lemma getLastD_mem (l : List Char) (d : Char) (h : l ≠ []) :
    l.getLastD d ∈ l := by
  rw [List.getLastD_eq_getLast?, List.getLast?_eq_getLast _ h]
  exact List.getLast_mem h

lemma dropWhile_getLastD (p : Char → Bool) (l : List Char) (d : Char)
    (h : l.dropWhile p ≠ []) :
    (l.dropWhile p).getLastD d = l.getLastD d := by
  induction l with
  | nil => exact absurd rfl h
  | cons c cs ih =>
    rw [List.dropWhile_cons] at h ⊢
    by_cases hc : p c = true
    · rw [if_pos hc] at h ⊢
      have hcs : cs ≠ [] := by
        intro hctr
        rw [hctr] at h
        exact h rfl
      rw [ih h, List.getLastD_cons, getLastD_irrel cs d c hcs]
    · rw [if_neg hc]

lemma head_dropWhile_false (p : Char → Bool) (l : List Char) (d : Char)
    (h : l.dropWhile p ≠ []) :
    p ((l.dropWhile p).headD d) = false := by
  induction l with
  | nil => exact absurd rfl h
  | cons c cs ih =>
    rw [List.dropWhile_cons] at h ⊢
    by_cases hc : p c = true
    · rw [if_pos hc] at h ⊢
      exact ih h
    · rw [if_neg hc]
      simpa using hc

lemma strip_endsOk (l : List Char) (h : strip l ≠ []) : endsOk (strip l) = true := by
  unfold strip at h ⊢
  unfold endsOk
  rw [getLastD_reverse]
  have h2 : (l.dropWhile pySpace).reverse.dropWhile pySpace ≠ [] := by
    intro hctr
    rw [hctr] at h
    exact h rfl
  rw [head_dropWhile_false pySpace _ '.' h2]
  rfl

lemma splitMarks_shape (marks : List Char) (hm : ∀ m ∈ marks, pySpace m = false) :
    ∀ (fuel : Nat) (l cur : List Char), l.length ≤ fuel →
      (l = [] → (cur ≠ [] ∧ pySpace (cur.headD '.') = false)) →
      endsOk l = true →
      ∀ p ∈ splitMarksGo marks fuel l cur, p ≠ [] ∧ endsOk p = true := by
  intro fuel
  induction fuel with
  | zero =>
    intro l cur hlen hcur hend p hp
    have hl : l = [] := List.length_eq_zero.mp (Nat.le_zero.mp hlen)
    subst hl
    obtain ⟨hc1, hc2⟩ := hcur rfl
    have hp2 : p = cur.reverse := by
      have h3 : p ∈ [cur.reverse ++ ([] : List Char)] := hp
      rw [List.mem_singleton] at h3
      rw [h3, List.append_nil]
    constructor
    · rw [hp2]
      simpa [List.reverse_eq_nil_iff] using hc1
    · rw [hp2]
      unfold endsOk
      rw [getLastD_reverse, hc2]
      rfl
  | succ fuel ih =>
    intro l cur hlen hcur hend p hp
    cases l with
    | nil =>
      obtain ⟨hc1, hc2⟩ := hcur rfl
      have hp2 : p = cur.reverse := List.mem_singleton.mp hp
      constructor
      · rw [hp2]
        simpa [List.reverse_eq_nil_iff] using hc1
      · rw [hp2]
        unfold endsOk
        rw [getLastD_reverse, hc2]
        rfl
    | cons c cs =>
      rw [List.length_cons] at hlen
      have hnext := ih cs (c :: cur) (by omega)
        (by
          intro hcs
          subst hcs
          refine ⟨by simp, ?_⟩
          have h2 : endsOk [c] = true := hend
          simpa [endsOk, List.getLastD_cons] using h2)
        (by
          by_cases hcs : cs = []
          · rw [hcs]; decide
          · rw [← endsOk_tail c cs hcs]; exact hend)
      cases hh : cur.head? with
      | none =>
        have hp2 : p ∈ splitMarksGo marks fuel cs (c :: cur) := by
          simp only [splitMarksGo, hh] at hp
          exact hp
        exact hnext p hp2
      | some m =>
        by_cases hcond : (marks.contains m && pySpace c) = true
        · have hp2 : p = cur.reverse
              ∨ p ∈ splitMarksGo marks fuel ((c :: cs).dropWhile pySpace) [] := by
            simp only [splitMarksGo, hh] at hp
            rw [if_pos hcond] at hp
            exact List.mem_cons.mp hp
          rcases hp2 with rfl | hp3
          · have hcne : cur ≠ [] := by
              intro hctr
              rw [hctr] at hh
              cases hh
            rw [Bool.and_eq_true] at hcond
            have hmmem : m ∈ marks := List.mem_of_elem_eq_true hcond.1
            constructor
            · simpa [List.reverse_eq_nil_iff] using hcne
            · unfold endsOk
              rw [getLastD_reverse]
              have hhd : cur.headD '.' = m := by
                rw [List.headD_eq_head?_getD, hh]
                rfl
              rw [hhd, hm m hmmem]
              rfl
          · have hr : (c :: cs).dropWhile pySpace ≠ [] := by
              intro hctr
              rw [List.dropWhile_eq_nil_iff] at hctr
              have hmem := getLastD_mem (c :: cs) '.' (by simp)
              have hws := hctr _ hmem
              unfold endsOk at hend
              rw [hws] at hend
              cases hend
            have hcw : pySpace c = true := by
              rw [Bool.and_eq_true] at hcond
              exact hcond.2
            apply ih ((c :: cs).dropWhile pySpace) [] ?_
              (fun hctr => absurd hctr hr) ?_ p hp3
            · rw [List.dropWhile_cons, if_pos hcw]
              exact Nat.le_trans (length_dropWhile_le pySpace cs) (by omega)
            · unfold endsOk
              rw [dropWhile_getLastD pySpace (c :: cs) '.' hr]
              exact hend
        · have hp2 : p ∈ splitMarksGo marks fuel cs (c :: cur) := by
            simp only [splitMarksGo, hh] at hp
            rw [if_neg hcond] at hp
            exact hp
          exact hnext p hp2

lemma accumGo_bound (sep : Char) (big : List Char → List (List Char)) (N : Nat)
    (hbig : ∀ q, q ≠ [] → endsOk q = true → N < q.length →
      ∀ c ∈ big q, c.length + 1 ≤ 2 * N) :
    ∀ (pieces cur : List (List Char)) (size : Nat),
      (∀ q ∈ pieces, q ≠ [] ∧ endsOk q = true) →
      (∀ q ∈ cur, q ≠ []) →
      size = sumLens cur → sumLens cur ≤ N →
      ∀ c ∈ accumGo sep big N pieces cur size, c.length + 1 ≤ 2 * N := by
  intro pieces
  induction pieces with
  | nil =>
    intro cur size hps hcur hsize hsum c hc
    by_cases hce : cur.isEmpty = true
    · simp only [accumGo] at hc
      rw [if_pos hce] at hc
      cases hc
    · simp only [accumGo] at hc
      rw [if_neg hce, List.mem_singleton] at hc
      subst hc
      exact joinSep_length_le sep cur N
        (fun hctr => hce (by rw [hctr]; rfl)) hcur hsum
  | cons q rest ih =>
    intro cur size hps hcur hsize hsum c hc
    obtain ⟨hqne, hqend⟩ := hps q (List.mem_cons_self _ _)
    have hrest := fun r hr => hps r (List.mem_cons_of_mem _ hr)
    simp only [accumGo] at hc
    by_cases h1 : N < q.length
    · rw [if_pos h1] at hc
      rcases List.mem_append.mp hc with hcl | hcr
      · rcases List.mem_append.mp hcl with hcf | hcb
        · by_cases hce : cur.isEmpty = true
          · rw [if_pos hce] at hcf
            cases hcf
          · rw [if_neg hce, List.mem_singleton] at hcf
            subst hcf
            exact joinSep_length_le sep cur N
              (fun hctr => hce (by rw [hctr]; rfl)) hcur hsum
        · exact hbig q hqne hqend h1 c hcb
      · exact ih [] 0 hrest (fun r hr => absurd hr (List.not_mem_nil r)) rfl
          (Nat.zero_le N) c hcr
    · rw [if_neg h1] at hc
      by_cases h2 : N < size + q.length
      · rw [if_pos h2] at hc
        rcases List.mem_cons.mp hc with rfl | hcr
        · have hcne : cur ≠ [] := by
            intro hctr
            subst hctr
            simp [sumLens] at hsize
            omega
          exact joinSep_length_le sep cur N hcne hcur hsum
        · exact ih [q] q.length hrest
            (fun r hr => by rw [List.mem_singleton] at hr; rw [hr]; exact hqne)
            (sumLens_singleton q).symm
            (by rw [sumLens_singleton]; omega) c hcr
      · rw [if_neg h2] at hc
        apply ih (cur ++ [q]) (size + q.length) hrest ?_ ?_ ?_ c hc
        · intro r hr
          rcases List.mem_append.mp hr with h3 | h3
          · exact hcur r h3
          · rw [List.mem_singleton] at h3
            rw [h3]
            exact hqne
        · rw [sumLens_append, sumLens_singleton, hsize]
        · rw [sumLens_append, sumLens_singleton]
          omega

lemma split_sentence_bound (N : Nat) (hN : 1 ≤ N) (s : List Char)
    (hs : s ≠ []) (hend : endsOk s = true) :
    ∀ c ∈ split_sentence N s, c.length + 1 ≤ 2 * N := by
  unfold split_sentence
  have hbig : ∀ q : List Char, q ≠ [] → endsOk q = true → N < q.length →
      ∀ c ∈ chunksOfGo N q.length q, c.length + 1 ≤ 2 * N := by
    intro q _ _ _ c hc
    have := chunksOfGo_bound N hN q.length q (Nat.le_refl _) c hc
    omega
  have hparts := splitMarks_shape phraseMarks (by decide) s.length s []
    (Nat.le_refl _) (fun h => absurd h hs) hend
  exact accumGo_bound ' ' _ N hbig _ [] 0 hparts
    (fun r hr => absurd hr (List.not_mem_nil r)) rfl (Nat.zero_le N)

lemma split_paragraph_bound (N : Nat) (hN : 1 ≤ N) (p : List Char)
    (hp : p ≠ []) (hend : endsOk p = true) :
    ∀ c ∈ split_paragraph N p, c.length + 1 ≤ 2 * N := by
  unfold split_paragraph
  have hbig : ∀ q : List Char, q ≠ [] → endsOk q = true → N < q.length →
      ∀ c ∈ split_sentence N q, c.length + 1 ≤ 2 * N :=
    fun q hq he _ => split_sentence_bound N hN q hq he
  have hparts := splitMarks_shape sentenceMarks (by decide) p.length p []
    (Nat.le_refl _) (fun h => absurd h hp) hend
  exact accumGo_bound ' ' _ N hbig _ [] 0 hparts
    (fun r hr => absurd hr (List.not_mem_nil r)) rfl (Nat.zero_le N)

end TextChunker

/-! ## Claim C2 -/

/-- C2 counterexample: with `max_chunk_size = 4` and input `"ab\n\ncd"`, the
chunker returns the single chunk `"ab\ncd"` of length 5 > 4, which is *not*
a single indivisible unit: it is the newline-join of the two paragraphs
`"ab"` and `"cd"`, each within the limit.  The accumulator counts unit
lengths only, not the separators inserted on join. -/
theorem C2_counterexample :
    TextChunker.split_into_chunks 4 "ab\n\ncd".toList = [['a', 'b', '\n', 'c', 'd']]
    ∧ 4 < (['a', 'b', '\n', 'c', 'd'] : List Char).length
    ∧ TextChunker.split_into_paragraphs "ab\n\ncd".toList = [['a', 'b'], ['c', 'd']]
    ∧ (['a', 'b'] : List Char).length ≤ 4
    ∧ (['c', 'd'] : List Char).length ≤ 4 :=
  ⟨by decide, by decide, by decide, by decide, by decide⟩

/-- C2 amended: for `max_chunk_size = N ≥ 1` (the Python code does not
terminate for `N = 0`), every chunk returned by `split_into_chunks` has
length at most `2·N − 1`: a chunk is either a hard slice of length ≤ N or a
join of units whose lengths sum to at most `N`, and only the single-character
separators inserted between units (not counted by the accumulator) can push
it past `N`.  Indivisible oversize units never survive unsplit — they are
hard-cut into slices of length ≤ N. -/
theorem C2_amended (N : Nat) (text : List Char) (hN : 1 ≤ N) :
    ∀ c ∈ TextChunker.split_into_chunks N text, c.length ≤ 2 * N - 1 := by
  intro c hc
  unfold TextChunker.split_into_chunks at hc
  by_cases h : text.isEmpty = true
  · rw [if_pos h] at hc
    cases hc
  · rw [if_neg h] at hc
    have hparts : ∀ q ∈ TextChunker.split_into_paragraphs text,
        q ≠ [] ∧ endsOk q = true := by
      intro q hq
      unfold TextChunker.split_into_paragraphs at hq
      rw [List.mem_filter] at hq
      obtain ⟨hmap, hne⟩ := hq
      have hqne : q ≠ [] := by
        intro hctr
        rw [hctr] at hne
        simp at hne
      obtain ⟨r, -, hr⟩ := List.mem_map.mp hmap
      refine ⟨hqne, ?_⟩
      rw [← hr]
      exact TextChunker.strip_endsOk r (by rw [hr]; exact hqne)
    have hbig : ∀ q : List Char, q ≠ [] → endsOk q = true → N < q.length →
        ∀ c2 ∈ TextChunker.split_paragraph N q, c2.length + 1 ≤ 2 * N :=
      fun q hq he _ => TextChunker.split_paragraph_bound N hN q hq he
    have hb := TextChunker.accumGo_bound '\n' _ N hbig _ [] 0 hparts
      (fun r hr => absurd hr (List.not_mem_nil r)) rfl (Nat.zero_le N) c hc
    omega

/-- Witness for C2 amended at `N = 4` on `"ab\n\ncd"`: the produced chunk
`"ab\ncd"` has length `5 ≤ 2·4 − 1`. -/
theorem C2_amended_witness :
    1 ≤ 4 ∧ (['a', 'b', '\n', 'c', 'd'] : List Char).length ≤ 2 * 4 - 1 :=
  ⟨by decide, C2_amended 4 "ab\n\ncd".toList (by decide)
    ['a', 'b', '\n', 'c', 'd'] (by decide)⟩

/-! ## Claim C8 -/

/-- C8: joining the chunks of `split_into_chunks` with newlines reconstructs
the input up to whitespace normalization — the sequence of non-whitespace
characters of the newline-join of the chunks equals that of the input, in
order, for every input text and every `max_chunk_size`. -/
theorem C8_reconstruction (N : Nat) (text : List Char) :
    nonWs (joinSep '\n' (TextChunker.split_into_chunks N text)) = nonWs text := by
  unfold TextChunker.split_into_chunks
  by_cases h : text.isEmpty = true
  · rw [if_pos h, List.isEmpty_iff.mp h]
    rfl
  · rw [if_neg h, TextChunker.nonWs_joinSep '\n' (by decide),
      TextChunker.accumGo_nwJoin _ _ _ (by decide)
        (TextChunker.split_paragraph_nwJoin N),
      TextChunker.split_into_paragraphs_nwJoin]
    rfl

/-- Witness for C8 at `N = 4` on `"ab\n\ncd"`. -/
theorem C8_reconstruction_witness :
    nonWs (joinSep '\n' (TextChunker.split_into_chunks 4 "ab\n\ncd".toList))
      = nonWs "ab\n\ncd".toList :=
  C8_reconstruction 4 "ab\n\ncd".toList

/-! ## Claim C1 -/

namespace ParallelTranslationService

lemma foldl_insertResult_skip :
    ∀ (es : List (Nat × List Char)) (d : Nat → Option (List Char)) (i : Nat),
      (∀ p ∈ es, p.1 ≠ i) → (es.foldl insertResult d) i = d i := by
  intro es
  induction es with
  | nil => intro d i _; rfl
  | cons e es ih =>
    intro d i h
    rw [List.foldl_cons, ih _ _ (fun p hp => h p (List.mem_cons_of_mem _ hp))]
    unfold insertResult
    rw [if_neg (Ne.symm (h e (List.mem_cons_self _ _)))]

lemma foldl_insertResult_nodup :
    ∀ (es : List (Nat × List Char)), (es.map Prod.fst).Nodup →
      ∀ (d : Nat → Option (List Char)) (i : Nat),
      (es.foldl insertResult d) i =
        match es.find? (fun p => p.1 == i) with
        | some p => some p.2
        | none => d i := by
  intro es
  induction es with
  | nil => intro _ d i; rfl
  | cons e es ih =>
    intro hnd d i
    rw [List.map_cons, List.nodup_cons] at hnd
    obtain ⟨hnotin, hnd2⟩ := hnd
    rw [List.foldl_cons, ih hnd2]
    by_cases hi : e.1 = i
    · have hkeys : ∀ p ∈ es, p.1 ≠ i := by
        intro p hp hpk
        apply hnotin
        rw [hi, ← hpk]
        exact List.mem_map_of_mem Prod.fst hp
      have hf : es.find? (fun p => p.1 == i) = none :=
        List.find?_eq_none.mpr (fun p hp => by simpa using hkeys p hp)
      have hf2 : (e :: es).find? (fun p => p.1 == i) = some e :=
        List.find?_cons_of_pos _ (by simpa using hi)
      simp only [hf, hf2]
      unfold insertResult
      rw [if_pos hi.symm]
    · have hf2 : (e :: es).find? (fun p => p.1 == i)
          = es.find? (fun p => p.1 == i) :=
        List.find?_cons_of_neg _ (by simpa using hi)
      rw [hf2]
      cases hf : es.find? (fun p => p.1 == i) with
      | some p => simp only [hf]
      | none =>
        simp only [hf]
        unfold insertResult
        rw [if_neg (fun h => hi h.symm)]

lemma partDict_eq_find? (results : List (String × Nat × List Char)) (cid : String)
    (hnd : ((results.filter (fun r => r.1 == cid)).map (fun r => r.2.1)).Nodup)
    (i : Nat) :
    partDict results cid i =
      (results.find? (fun r => r.1 == cid && r.2.1 == i)).map (fun r => r.2.2) := by
  unfold partDict
  have hnd2 : ((partEntries results cid).map Prod.fst).Nodup := by
    unfold partEntries
    rw [List.map_map]
    exact hnd
  rw [foldl_insertResult_nodup _ hnd2]
  unfold partEntries
  rw [List.find?_map, List.find?_filter]
  have hpred : (fun a : String × Nat × List Char =>
      decide ((a.1 == cid) = true ∧ (((fun p : Nat × List Char => p.1 == i) ∘
        (fun r : String × Nat × List Char => r.2)) a) = true))
      = (fun r : String × Nat × List Char => r.1 == cid && r.2.1 == i) := by
    funext a
    cases hx : (a.1 == cid) <;> cases hy : (a.2.1 == i) <;>
      simp [Function.comp, hx, hy]
  rw [hpred]
  cases hf : results.find? (fun r => r.1 == cid && r.2.1 == i) with
  | none => simp [hf]
  | some r => simp [hf]

lemma filter_map_getD (l : List Nat) (d : Nat → Option (List Char))
    (h : ∀ i ∈ l, ∀ t, d i = some t → (!t.isEmpty) = true) :
    (l.map (fun i => (d i).getD [])).filter (fun c => !c.isEmpty)
      = l.filterMap d := by
  induction l with
  | nil => rfl
  | cons i l ih =>
    rw [List.map_cons, List.filter_cons, List.filterMap_cons]
    have ihr := ih (fun j hj => h j (List.mem_cons_of_mem _ hj))
    cases hd : d i with
    | none =>
      simp only [hd, Option.getD_none, List.isEmpty_nil, Bool.not_true,
        Bool.false_eq_true, if_false]
      exact ihr
    | some t =>
      have ht := h i (List.mem_cons_self _ _) t hd
      simp only [hd, Option.getD_some, ht, if_true]
      rw [ihr]

lemma find?_perm_unique {α : Type} {l l2 : List α} (h : l.Perm l2) (p : α → Bool)
    (huniq : ∀ a ∈ l, ∀ b ∈ l, p a = true → p b = true → a = b) :
    l.find? p = l2.find? p := by
  cases hf : l.find? p with
  | none =>
    cases hf2 : l2.find? p with
    | none => rfl
    | some b =>
      exact absurd (List.find?_some hf2)
        (List.find?_eq_none.mp hf b (h.mem_iff.mpr (List.mem_of_find?_eq_some hf2)))
  | some a =>
    cases hf2 : l2.find? p with
    | none =>
      exact absurd (List.find?_some hf)
        (List.find?_eq_none.mp hf2 a (h.mem_iff.mp (List.mem_of_find?_eq_some hf)))
    | some b =>
      rw [huniq a (List.mem_of_find?_eq_some hf) b
        (h.mem_iff.mpr (List.mem_of_find?_eq_some hf2))
        (List.find?_some hf) (List.find?_some hf2)]

lemma unique_match (results : List (String × Nat × List Char)) (cid : String) (i : Nat)
    (hnd : ((results.filter (fun r => r.1 == cid)).map (fun r => r.2.1)).Nodup) :
    ∀ a ∈ results, ∀ b ∈ results, (a.1 == cid && a.2.1 == i) = true →
      (b.1 == cid && b.2.1 == i) = true → a = b := by
  intro a ha b hb hpa hpb
  rw [Bool.and_eq_true] at hpa hpb
  have haf : a ∈ results.filter (fun r => r.1 == cid) :=
    List.mem_filter.mpr ⟨ha, hpa.1⟩
  have hbf : b ∈ results.filter (fun r => r.1 == cid) :=
    List.mem_filter.mpr ⟨hb, hpb.1⟩
  by_contra hne
  have hpair : List.Pairwise (fun x y : String × Nat × List Char => x.2.1 ≠ y.2.1)
      (results.filter (fun r => r.1 == cid)) := by
    have h2 := hnd
    rw [List.Nodup, List.pairwise_map] at h2
    exact h2
  have hsym : Symmetric (fun x y : String × Nat × List Char => x.2.1 ≠ y.2.1) :=
    fun x y hxy he => hxy he.symm
  apply hpair.forall hsym haf hbf hne
  have hai : a.2.1 = i := by simpa using hpa.2
  have hbi : b.2.1 = i := by simpa using hpb.2
  rw [hai, hbi]

lemma combine_eq_spec (chunks_map : List (String × Nat))
    (results : List (String × Nat × List Char))
    (hidx : ∀ part ∈ chunks_map, ∀ r ∈ results, r.1 = part.1 → r.2.1 < part.2)
    (htext : ∀ r ∈ results, r.2.2 ≠ [])
    (hnd : ∀ part ∈ chunks_map,
      ((results.filter (fun r => r.1 == part.1)).map (fun r => r.2.1)).Nodup) :
    combine_results chunks_map results = specCombine chunks_map results := by
  unfold combine_results specCombine
  apply List.filterMap_congr
  intro part hpart
  have hdict := partDict_eq_find? results part.1 (hnd part hpart)
  have hpicked : (List.range part.2).filterMap (fun i =>
      (results.find? (fun r => r.1 == part.1 && r.2.1 == i)).map (fun r => r.2.2))
        = (List.range part.2).filterMap (partDict results part.1) :=
    List.filterMap_congr (fun i _ => (hdict i).symm)
  have hfil : ((List.range part.2).map
      (fun i => (partDict results part.1 i).getD [])).filter (fun c => !c.isEmpty)
        = (List.range part.2).filterMap (partDict results part.1) := by
    apply filter_map_getD
    intro i _ t hdi
    rw [hdict i] at hdi
    cases hf : results.find? (fun r => r.1 == part.1 && r.2.1 == i) with
    | none => rw [hf] at hdi; cases hdi
    | some r =>
      rw [hf] at hdi
      have hrt : r.2.2 = t := by simpa using hdi
      have hne := htext r (List.mem_of_find?_eq_some hf)
      rw [hrt] at hne
      simpa [List.isEmpty_iff] using hne
  by_cases hemp : (partEntries results part.1).isEmpty = true
  · rw [if_pos hemp]
    have hfilnil : results.filter (fun r => r.1 == part.1) = [] := by
      have h2 : partEntries results part.1 = [] := List.isEmpty_iff.mp hemp
      unfold partEntries at h2
      exact List.map_eq_nil_iff.mp h2
    have hnof : ∀ i : Nat,
        results.find? (fun r => r.1 == part.1 && r.2.1 == i) = none := by
      intro i
      rw [List.find?_eq_none]
      intro r hr hpr
      rw [Bool.and_eq_true] at hpr
      have : r ∈ results.filter (fun r => r.1 == part.1) :=
        List.mem_filter.mpr ⟨hr, hpr.1⟩
      rw [hfilnil] at this
      cases this
    have hpicknil : (List.range part.2).filterMap (fun i =>
        (results.find? (fun r => r.1 == part.1 && r.2.1 == i)).map
          (fun r => r.2.2)) = [] :=
      List.filterMap_eq_nil_iff.mpr (fun i _ => by rw [hnof i]; rfl)
    rw [if_pos (by rw [hpicknil]; rfl)]
  · rw [if_neg hemp]
    have hfne : results.filter (fun r => r.1 == part.1) ≠ [] := by
      intro hctr
      apply hemp
      unfold partEntries
      rw [hctr]
      rfl
    obtain ⟨r, hrmem⟩ := List.exists_mem_of_ne_nil _ hfne
    rw [List.mem_filter] at hrmem
    have hrcid : r.1 = part.1 := by simpa using hrmem.2
    have hrlt : r.2.1 < part.2 := hidx part hpart r hrmem.1 hrcid
    have hdsome : ∃ t, partDict results part.1 r.2.1 = some t := by
      rw [hdict r.2.1]
      have hfs : (results.find? (fun x => x.1 == part.1 && x.2.1 == r.2.1)).isSome
          = true := by
        rw [List.find?_isSome]
        exact ⟨r, hrmem.1, by simp [hrcid]⟩
      obtain ⟨x, hx⟩ := Option.isSome_iff_exists.mp hfs
      exact ⟨x.2.2, by rw [hx]; rfl⟩
    obtain ⟨t, hts⟩ := hdsome
    have htpick : t ∈ (List.range part.2).filterMap (partDict results part.1) :=
      List.mem_filterMap.mpr ⟨r.2.1, List.mem_range.mpr hrlt, hts⟩
    have hpickne : ((List.range part.2).filterMap (fun i =>
        (results.find? (fun x => x.1 == part.1 && x.2.1 == i)).map
          (fun x => x.2.2))).isEmpty ≠ true := by
      rw [hpicked]
      intro hctr
      rw [List.isEmpty_iff.mp hctr] at htpick
      cases htpick
    rw [if_neg hpickne, hfil, hpicked]

end ParallelTranslationService

/-- C1: for every chunks map and every arrival-ordered list of collected
`(part id, chunk index, translated text)` results — with the indices of each
part's results in range and pairwise distinct and the collected texts
non-empty, as produced by the workers — `_combine_results` yields, for each
part, the newline-join of the translated chunk texts in strictly increasing
chunk-index order from `0` to the part's max index, omitting indices with no
successful translation (no placeholder); parts with zero successfully
translated chunks are absent; and the output is unchanged under any
permutation of the arrival order. -/
theorem C1_combine_results (chunks_map : List (String × Nat))
    (results results2 : List (String × Nat × List Char))
    (hperm : results.Perm results2)
    (hidx : ∀ part ∈ chunks_map, ∀ r ∈ results, r.1 = part.1 → r.2.1 < part.2)
    (htext : ∀ r ∈ results, r.2.2 ≠ [])
    (hnd : ∀ part ∈ chunks_map,
      ((results.filter (fun r => r.1 == part.1)).map (fun r => r.2.1)).Nodup) :
    ParallelTranslationService.combine_results chunks_map results
        = ParallelTranslationService.specCombine chunks_map results
    ∧ ParallelTranslationService.combine_results chunks_map results2
        = ParallelTranslationService.combine_results chunks_map results := by
  have hidx2 : ∀ part ∈ chunks_map, ∀ r ∈ results2, r.1 = part.1 → r.2.1 < part.2 :=
    fun part hp r hr => hidx part hp r (hperm.mem_iff.mpr hr)
  have htext2 : ∀ r ∈ results2, r.2.2 ≠ [] :=
    fun r hr => htext r (hperm.mem_iff.mpr hr)
  have hnd2 : ∀ part ∈ chunks_map,
      ((results2.filter (fun r => r.1 == part.1)).map (fun r => r.2.1)).Nodup :=
    fun part hp => (((hperm.filter _).map _).nodup_iff).mp (hnd part hp)
  have hspec : ParallelTranslationService.specCombine chunks_map results2
      = ParallelTranslationService.specCombine chunks_map results := by
    unfold ParallelTranslationService.specCombine
    apply List.filterMap_congr
    intro part hpart
    have hfindeq : ∀ i : Nat,
        results2.find? (fun r => r.1 == part.1 && r.2.1 == i)
          = results.find? (fun r => r.1 == part.1 && r.2.1 == i) := by
      intro i
      exact (ParallelTranslationService.find?_perm_unique hperm _
        (ParallelTranslationService.unique_match results part.1 i (hnd part hpart))).symm
    have hpick : (List.range part.2).filterMap (fun i =>
        (results2.find? (fun r => r.1 == part.1 && r.2.1 == i)).map
          (fun r => r.2.2))
          = (List.range part.2).filterMap (fun i =>
        (results.find? (fun r => r.1 == part.1 && r.2.1 == i)).map
          (fun r => r.2.2)) :=
      List.filterMap_congr (fun i _ => by rw [hfindeq i])
    rw [hpick]
  refine ⟨ParallelTranslationService.combine_eq_spec chunks_map results hidx htext hnd, ?_⟩
  rw [ParallelTranslationService.combine_eq_spec chunks_map results2 hidx2 htext2 hnd2,
    hspec, ← ParallelTranslationService.combine_eq_spec chunks_map results hidx htext hnd]

/-- Witness for C1: one part `"part"` with 2 chunks; results arriving as
`[(idx 1, "B"), (idx 0, "A")]` and, permuted, `[(idx 0, "A"), (idx 1, "B")]`;
both reassemble to `"A\nB"`. -/
theorem C1_combine_results_witness :
    ParallelTranslationService.combine_results [("part", 2)]
        [("part", (1, ['B'])), ("part", (0, ['A']))]
      = ParallelTranslationService.specCombine [("part", 2)]
        [("part", (1, ['B'])), ("part", (0, ['A']))]
    ∧ ParallelTranslationService.combine_results [("part", 2)]
        [("part", (0, ['A'])), ("part", (1, ['B']))]
      = ParallelTranslationService.combine_results [("part", 2)]
        [("part", (1, ['B'])), ("part", (0, ['A']))] :=
  C1_combine_results [("part", 2)]
    [("part", (1, ['B'])), ("part", (0, ['A']))]
    [("part", (0, ['A'])), ("part", (1, ['B']))]
    (List.Perm.swap _ _ _) (by decide) (by decide) (by decide)

/-- Witness for C10: a translator that always fails, batch size 1, a single
text; the fallback output keeps the original text, and the parallel combine
omits the failed chunk 1. -/
theorem C10_both_policies_witness :
    (TranslationService.translate_batch (fun _ => none) 1 [['a']]).length
        = ([['a']] : List (List Char)).length
    ∧ (∀ i, i < ([['a']] : List (List Char)).length →
        (fun _ => (none : Option (List Char))) (([['a']] : List (List Char)).getD i []) = none →
        (TranslationService.translate_batch (fun _ => none) 1 [['a']]).getD i []
          = ([['a']] : List (List Char)).getD i [])
    ∧ ParallelTranslationService.combine_results [("part", 2)] [("part", (0, ['T']))]
        = [("part", ['T'])] :=
  C10_both_policies (fun _ => none) 1 [['a']] "part" ['T'] (by decide) (by decide)

/-! ## Claims C6 and C7 -/

namespace TranslationValidator

lemma vbr_eq (parse : List Char → SoupDoc) (o t : List Char) :
    validate_basic_requirements parse o t
      = (!o.isEmpty && !t.isEmpty
          && ContentProcessor.is_valid_content parse o
          && ContentProcessor.is_valid_content parse t) := by
  unfold validate_basic_requirements
  cases ho : o.isEmpty <;> cases ht : t.isEmpty <;>
    cases hvo : ContentProcessor.is_valid_content parse o <;>
      cases hvt : ContentProcessor.is_valid_content parse t <;>
        simp [ho, ht, hvo, hvt]

lemma ivc_facts (parse : List Char → SoupDoc) (c : List Char)
    (h : ContentProcessor.is_valid_content parse c = true) :
    c.isEmpty = false ∧ (parse c).text.isEmpty = false
      ∧ (parse c).blockTexts.isEmpty = false := by
  unfold ContentProcessor.is_valid_content at h
  by_cases h1 : (c.isEmpty || (strip c).isEmpty) = true
  · rw [if_pos h1] at h; cases h
  · rw [if_neg h1] at h
    by_cases h2 : c.length < 50
    · rw [if_pos h2] at h; cases h
    · rw [if_neg h2] at h
      by_cases h3 : (parse c).text.isEmpty = true
      · rw [if_pos h3] at h; cases h
      · rw [if_neg h3] at h
        by_cases h4 : 10 * (parse c).text.length < c.length
        · rw [if_pos h4] at h; cases h
        · rw [if_neg h4] at h
          by_cases h5 : (parse c).blockTexts.isEmpty = true
          · rw [if_pos h5] at h; cases h
          · refine ⟨?_, ?_, ?_⟩
            · cases hce : c.isEmpty
              · rfl
              · exact absurd (by rw [hce]; rfl) h1
            · cases hx : (parse c).text.isEmpty
              · rfl
              · exact absurd hx h3
            · cases hx : (parse c).blockTexts.isEmpty
              · rfl
              · exact absurd hx h5

lemma vlr_eq (parse : List Char → SoupDoc) (o t : List Char)
    (ho : (parse o).text.isEmpty = false) (ht : (parse t).text.isEmpty = false) :
    validate_length_ratio parse o t
      = (decide (3 * (parse o).text.length ≤ 10 * (parse t).text.length)
          && decide ((parse t).text.length ≤ 3 * (parse o).text.length)) := by
  unfold validate_length_ratio
  rw [ho, ht]
  simp only [Bool.or_self, Bool.false_eq_true, if_false]
  by_cases h1 : 10 * (parse t).text.length < 3 * (parse o).text.length
  · rw [if_pos (by simp [h1]), decide_eq_false (not_le.mpr h1), Bool.false_and]
  · by_cases h2 : (parse t).text.length > 3 * (parse o).text.length
    · rw [if_pos (by simp [h2]), decide_eq_false (not_le.mpr h2), Bool.and_false]
    · rw [if_neg (by simp [h1, h2]), decide_eq_true (not_lt.mp h1),
        decide_eq_true (not_lt.mp h2)]
      rfl

lemma vs_eq (parse : List Char → SoupDoc) (o t : List Char) :
    validate_structure parse o t
      = (!((parse o).tagNames.length = 0) && !((parse t).tagNames.length = 0)
          && decide (max (parse o).tagNames.length (parse t).tagNames.length
            ≤ 2 * min (parse o).tagNames.length (parse t).tagNames.length)) := by
  unfold validate_structure
  by_cases h1 : (parse o).tagNames.length = 0
  · rw [if_pos (by simp [h1])]
    simp [h1]
  · by_cases h2 : (parse t).tagNames.length = 0
    · rw [if_pos (by simp [h2])]
      simp [h2]
    · rw [if_neg (by simp [h1, h2])]
      by_cases h3 : 2 * min (parse o).tagNames.length (parse t).tagNames.length
          < max (parse o).tagNames.length (parse t).tagNames.length
      · rw [if_pos h3, decide_eq_false (not_le.mpr h3)]
        simp
      · rw [if_neg h3, decide_eq_true (not_lt.mp h3)]
        simp [h1, h2]

lemma vcb_eq (parse : List Char → SoupDoc) (o t : List Char)
    (ho : o.isEmpty = false) (ht : t.isEmpty = false) :
    validate_content_blocks parse o t
      = (!((parse o).blockTexts.filter (fun b => !b.isEmpty && 10 < b.length)).isEmpty
          && !((parse t).blockTexts.filter (fun b => !b.isEmpty && 10 < b.length)).isEmpty
          && decide (max ((parse o).blockTexts.filter
                  (fun b => !b.isEmpty && 10 < b.length)).length
                ((parse t).blockTexts.filter
                  (fun b => !b.isEmpty && 10 < b.length)).length
              ≤ 2 * min ((parse o).blockTexts.filter
                  (fun b => !b.isEmpty && 10 < b.length)).length
                ((parse t).blockTexts.filter
                  (fun b => !b.isEmpty && 10 < b.length)).length)) := by
  unfold validate_content_blocks ContentProcessor.extract_text_blocks
  rw [ho, ht]
  simp only [Bool.false_eq_true, if_false]
  by_cases h1 : ((parse o).blockTexts.filter
      (fun b => !b.isEmpty && 10 < b.length)).isEmpty = true
  · rw [if_pos (by simp [h1])]
    simp [h1]
  · by_cases h2 : ((parse t).blockTexts.filter
        (fun b => !b.isEmpty && 10 < b.length)).isEmpty = true
    · rw [if_pos (by simp [h2])]
      simp [h2]
    · rw [if_neg (by simp [h1, h2])]
      by_cases h3 : 2 * min ((parse o).blockTexts.filter
            (fun b => !b.isEmpty && 10 < b.length)).length
          ((parse t).blockTexts.filter
            (fun b => !b.isEmpty && 10 < b.length)).length
          < max ((parse o).blockTexts.filter
            (fun b => !b.isEmpty && 10 < b.length)).length
          ((parse t).blockTexts.filter
            (fun b => !b.isEmpty && 10 < b.length)).length
      · rw [if_pos h3, decide_eq_false (not_le.mpr h3)]
        simp
      · rw [if_neg h3, decide_eq_true (not_lt.mp h3)]
        simp only [Bool.and_true]
        cases hx1 : ((parse o).blockTexts.filter
            (fun b => !b.isEmpty && 10 < b.length)).isEmpty
        · cases hx2 : ((parse t).blockTexts.filter
              (fun b => !b.isEmpty && 10 < b.length)).isEmpty
          · rfl
          · exact absurd hx2 h2
        · exact absurd hx1 h1

lemma ite_chain (a b c : Bool) :
    (if !true then false
     else if !a then false
     else if !b then false
     else if !c then false
     else true)
      = (((true && a) && b) && c) := by
  cases a <;> cases b <;> cases c <;> rfl

end TranslationValidator

/-- C6 counterexample: a pair of documents on which the code's
`validate_translation` returns `false` while the claim's four-stage
description (with blocks of **at least 10** characters) holds: the original
has two block texts of exactly 10 characters — counted by the claim's
stage 4 (ratio `2` vs `1` = `0.5`), but discarded by the code's
`extract_text_blocks`, whose threshold is **more than 10** characters, so
the code fails stage 4 with zero original blocks. -/
theorem C6_counterexample :
    TranslationValidator.validate_translation cparseC6 corigC6 ctransC6 = false
    ∧ TranslationValidator.specValidateStated cparseC6 corigC6 ctransC6 = true :=
  ⟨by decide, by decide⟩

/-- C6 amended: `validate_translation` is exactly the four-stage AND-chain
the claim states, in order with short-circuiting, with one correction in
stage 4: a content block is the text inside a block-level element of **more
than 10** characters (at least 11), not "at least 10". -/
theorem C6_amended (parse : List Char → SoupDoc) (original translated : List Char) :
    TranslationValidator.validate_translation parse original translated
      = TranslationValidator.specValidateAmended parse original translated := by
  cases h1 : TranslationValidator.validate_basic_requirements parse original translated with
  | false =>
    have h1s : (!original.isEmpty && !translated.isEmpty
        && ContentProcessor.is_valid_content parse original
        && ContentProcessor.is_valid_content parse translated) = false := by
      rw [← TranslationValidator.vbr_eq]
      exact h1
    unfold TranslationValidator.validate_translation
      TranslationValidator.specValidateAmended
    rw [h1, h1s]
    rfl
  | true =>
    have h1s : (!original.isEmpty && !translated.isEmpty
        && ContentProcessor.is_valid_content parse original
        && ContentProcessor.is_valid_content parse translated) = true := by
      rw [← TranslationValidator.vbr_eq]
      exact h1
    have h1c := h1s
    rw [Bool.and_eq_true, Bool.and_eq_true, Bool.and_eq_true] at h1c
    obtain ⟨⟨⟨hoe2, hte2⟩, hvo⟩, hvt⟩ := h1c
    obtain ⟨hoe, hto, -⟩ := TranslationValidator.ivc_facts parse original hvo
    obtain ⟨hte, htt, -⟩ := TranslationValidator.ivc_facts parse translated hvt
    unfold TranslationValidator.validate_translation
      TranslationValidator.specValidateAmended
    rw [h1, h1s, TranslationValidator.vlr_eq parse original translated hto htt,
      TranslationValidator.vs_eq parse original translated,
      TranslationValidator.vcb_eq parse original translated hoe hte]
    exact TranslationValidator.ite_chain _ _ _

/-- Witness for C6 amended at the concrete C6 documents. -/
theorem C6_amended_witness :
    TranslationValidator.validate_translation cparseC6 corigC6 ctransC6
      = TranslationValidator.specValidateAmended cparseC6 corigC6 ctransC6 :=
  C6_amended cparseC6 corigC6 ctransC6

/-- C7 counterexample: a document `cXC7` that passes the basic
content-quality check (`is_valid_content`) yet fails
`validate_translation(X, X)`: none of its block texts is longer than 10
characters, so stage 4 sees zero blocks on both sides and fails. -/
theorem C7_counterexample :
    ContentProcessor.is_valid_content (fun _ => cdocC) cXC7 = true
    ∧ cXC7 ≠ []
    ∧ TranslationValidator.validate_translation (fun _ => cdocC) cXC7 cXC7 = false :=
  ⟨by decide, by decide, by decide⟩

/-- C7 amended: `validate_translation(X, X) = true` for every `X` that
passes the basic content-quality check **and** has at least one block-level
element (among all its elements) whose text is longer than 10 characters. -/
theorem C7_amended (parse : List Char → SoupDoc) (X : List Char)
    (hvalid : ContentProcessor.is_valid_content parse X = true)
    (htags : (parse X).tagNames ≠ [])
    (hblock : ∃ b ∈ (parse X).blockTexts, (!b.isEmpty && 10 < b.length) = true) :
    TranslationValidator.validate_translation parse X X = true := by
  obtain ⟨hXe, hte, -⟩ := TranslationValidator.ivc_facts parse X hvalid
  have h1 : TranslationValidator.validate_basic_requirements parse X X = true := by
    unfold TranslationValidator.validate_basic_requirements
    simp [hXe, hvalid]
  have h2 : TranslationValidator.validate_length_ratio parse X X = true := by
    unfold TranslationValidator.validate_length_ratio
    simp only [hte, Bool.or_self, Bool.false_eq_true, if_false]
    rw [if_neg (by
      simp only [Bool.or_eq_true, decide_eq_true_eq]
      omega)]
  have hn0 : (parse X).tagNames.length ≠ 0 :=
    fun h => htags (List.length_eq_zero.mp h)
  have h3 : TranslationValidator.validate_structure parse X X = true := by
    unfold TranslationValidator.validate_structure
    rw [if_neg (by simp [hn0]), if_neg (by rw [min_self, max_self]; omega)]
  obtain ⟨b, hbmem, hbprop⟩ := hblock
  have hobne : ((parse X).blockTexts.filter
      (fun b => !b.isEmpty && 10 < b.length)) ≠ [] :=
    List.ne_nil_of_mem (List.mem_filter.mpr ⟨hbmem, hbprop⟩)
  have hobE : ((parse X).blockTexts.filter
      (fun b => !b.isEmpty && 10 < b.length)).isEmpty = false := by
    cases hx : ((parse X).blockTexts.filter
        (fun b => !b.isEmpty && 10 < b.length)).isEmpty
    · rfl
    · exact absurd (List.isEmpty_iff.mp hx) hobne
  have h4 : TranslationValidator.validate_content_blocks parse X X = true := by
    unfold TranslationValidator.validate_content_blocks
      ContentProcessor.extract_text_blocks
    simp only [hXe, Bool.false_eq_true, if_false, hobE, Bool.or_self]
    rw [if_neg (by rw [min_self, max_self]; omega)]
  unfold TranslationValidator.validate_translation
  rw [h1, h2, h3, h4]
  rfl

/-- Witness for C7 amended on the concrete document `cXW`, which has one
12-character block. -/
theorem C7_amended_witness :
    TranslationValidator.validate_translation (fun _ => cdocW) cXW cXW = true :=
  C7_amended (fun _ => cdocW) cXW (by decide) (by decide)
    ⟨"0123456789ab".toList, by decide, by decide⟩

end Fanfic
